import Mathlib

/-!
Verification development for the code-executor orchestration server.

The definitions below are shallow embeddings of the TypeScript sources:
JavaScript numbers are modelled as rationals (`ℚ`), `Math.floor`/`Math.ceil`
as `Int.floor`/`Int.ceil` cast back to `ℚ`, the per-client bucket map as a
function `String → Option TokenBucket`, and mutation as explicit state
passing.  Each `def` is translated line by line from the source file named
in its doc comment.
-/

namespace CodeExecutor

/-- Rate-limit configuration after the `RateLimiter` constructor has applied
the burst default (src/rate-limiter.ts lines 70-80):
`burstSize := config.burstSize ?? config.maxRequests`. -/
structure RateLimitConfig where
  maxRequests : ℚ
  windowMs : ℚ
  burstSize : ℚ

/-- Models the `RateLimiter` constructor (src/rate-limiter.ts lines 70-80):
the stored config uses `burstSize ?? maxRequests`. -/
def mkRateLimiterConfig (maxRequests windowMs : ℚ) (burstSize : Option ℚ) : RateLimitConfig :=
  { maxRequests := maxRequests, windowMs := windowMs, burstSize := burstSize.getD maxRequests }

/-- Token bucket entry for a client (src/rate-limiter.ts interface TokenBucket). -/
structure TokenBucket where
  tokens : ℚ
  lastRefill : ℚ
deriving DecidableEq

/-- Result of a rate-limit check (src/rate-limiter.ts interface RateLimitResult). -/
structure RateLimitResult where
  allowed : Bool
  remaining : ℚ
  resetIn : ℚ
  fillLevel : ℚ
deriving DecidableEq

/-- The private `buckets: Map<string, TokenBucket>` of `RateLimiter`. -/
abbrev Buckets := String → Option TokenBucket

/-- Shallow embedding of `RateLimiter.checkLimit` (src/rate-limiter.ts lines
88-131).  The returned pair is (result, updated bucket map). -/
def checkLimit (cfg : RateLimitConfig) (buckets : Buckets) (clientId : String) (now : ℚ) :
    RateLimitResult × Buckets :=
  let bucket := (buckets clientId).getD { tokens := cfg.burstSize, lastRefill := now }
  let timeSinceRefill := now - bucket.lastRefill
  let refillRate := cfg.maxRequests / cfg.windowMs
  let tokensToAdd := timeSinceRefill * refillRate
  let tokens1 := min cfg.burstSize (bucket.tokens + tokensToAdd)
  let allowed : Bool := decide (1 ≤ tokens1)
  let tokens2 := if allowed then tokens1 - 1 else tokens1
  let msPerToken := cfg.windowMs / cfg.maxRequests
  let resetIn := if allowed then msPerToken else msPerToken * (1 - tokens2)
  ({ allowed := allowed
     remaining := (⌊tokens2⌋ : ℚ)
     resetIn := (⌈resetIn⌉ : ℚ)
     fillLevel := tokens2 / cfg.burstSize },
   Function.update buckets clientId (some { tokens := tokens2, lastRefill := now }))

/-- Shallow embedding of `RateLimiter.getLimit` (src/rate-limiter.ts lines
138-169).  The method only reads `this.buckets`, so the state component of the
result is the unchanged input map. -/
def getLimit (cfg : RateLimitConfig) (buckets : Buckets) (clientId : String) (now : ℚ) :
    RateLimitResult × Buckets :=
  match buckets clientId with
  | none =>
    ({ allowed := true, remaining := cfg.burstSize, resetIn := 0, fillLevel := 1 }, buckets)
  | some bucket =>
    let timeSinceRefill := now - bucket.lastRefill
    let refillRate := cfg.maxRequests / cfg.windowMs
    let currentTokens := min cfg.burstSize (bucket.tokens + timeSinceRefill * refillRate)
    let msPerToken := cfg.windowMs / cfg.maxRequests
    let resetInQ := if 1 ≤ currentTokens then msPerToken else msPerToken * (1 - currentTokens)
    ({ allowed := decide (1 ≤ currentTokens)
       remaining := (⌊currentTokens⌋ : ℚ)
       resetIn := (⌈resetInQ⌉ : ℚ)
       fillLevel := currentTokens / cfg.burstSize }, buckets)

/-- The refilled token count `checkLimit` computes (lines 101-110) before any
token is consumed: `min(burstSize, tokens + (now - lastRefill) * maxRequests/windowMs)`,
with a fresh full bucket substituted for an unknown client. -/
def refilledTokens (cfg : RateLimitConfig) (buckets : Buckets) (clientId : String) (now : ℚ) : ℚ :=
  let bucket := (buckets clientId).getD { tokens := cfg.burstSize, lastRefill := now }
  min cfg.burstSize (bucket.tokens + (now - bucket.lastRefill) * (cfg.maxRequests / cfg.windowMs))

/-- The `allowed` flag of `checkLimit` is exactly the comparison
`refilledTokens ≥ 1` (src/rate-limiter.ts line 114). -/
theorem checkLimit_allowed_eq (cfg : RateLimitConfig) (buckets : Buckets)
    (clientId : String) (now : ℚ) :
    (checkLimit cfg buckets clientId now).1.allowed =
      decide (1 ≤ refilledTokens cfg buckets clientId now) := by
  simp [checkLimit, refilledTokens]

/-- The bucket stored by `checkLimit` holds the refilled count minus the
consumed token (if any) and `lastRefill = now`. -/
theorem checkLimit_stored_bucket (cfg : RateLimitConfig) (buckets : Buckets)
    (clientId : String) (now : ℚ) :
    (checkLimit cfg buckets clientId now).2 clientId =
      some (TokenBucket.mk (refilledTokens cfg buckets clientId now -
        (if (checkLimit cfg buckets clientId now).1.allowed then 1 else 0)) now) := by
  by_cases h : (1 : ℚ) ≤ refilledTokens cfg buckets clientId now
  · simp only [refilledTokens] at h
    simp [checkLimit, refilledTokens, h]
  · simp only [refilledTokens] at h
    simp [checkLimit, refilledTokens, h]

/-- C2: for every client id and bucket state, `checkLimit` returns
`allowed = true` iff the refilled token count is at least 1; exactly when
allowed the stored token count is the refilled value minus 1, and when denied
it equals the refilled value, with `lastRefill` set to `now` in both cases. -/
theorem checkLimit_allowed_iff_consumes_one (cfg : RateLimitConfig) (buckets : Buckets)
    (clientId : String) (now : ℚ) :
    ((checkLimit cfg buckets clientId now).1.allowed = true ↔
      1 ≤ refilledTokens cfg buckets clientId now) ∧
    (checkLimit cfg buckets clientId now).2 clientId =
      some (TokenBucket.mk (refilledTokens cfg buckets clientId now -
        (if (checkLimit cfg buckets clientId now).1.allowed then 1 else 0)) now) := by
  constructor
  · rw [checkLimit_allowed_eq]
    simp
  · exact checkLimit_stored_bucket cfg buckets clientId now

/-- C5: `getLimit` leaves the bucket map entirely unchanged (it neither
creates a bucket for an unknown client nor touches an existing bucket), and
it returns the same `allowed` value as a `checkLimit` at the same instant,
and as `remaining` the floor of the refilled token count before consumption.
The configuration hypotheses say the effective burst size is an integer ≥ 1
(always true for validated configurations, where `maxRequests` is a positive
integer): they are needed only for the unknown-client branch, where
`getLimit` hard-codes `allowed: true, remaining: burstSize`. -/
theorem getLimit_pure_and_agrees (cfg : RateLimitConfig) (buckets : Buckets)
    (clientId : String) (now : ℚ)
    (hb1 : 1 ≤ cfg.burstSize) (hbint : (⌊cfg.burstSize⌋ : ℚ) = cfg.burstSize) :
    (getLimit cfg buckets clientId now).2 = buckets ∧
    (getLimit cfg buckets clientId now).1.allowed =
      (checkLimit cfg buckets clientId now).1.allowed ∧
    (getLimit cfg buckets clientId now).1.remaining =
      (⌊refilledTokens cfg buckets clientId now⌋ : ℚ) := by
  rcases h : buckets clientId with _ | b
  · refine ⟨by simp [getLimit, h], ?_, ?_⟩
    · simp [getLimit, checkLimit, refilledTokens, h, hb1]
    · simp [getLimit, refilledTokens, h, hbint]
  · exact ⟨by simp [getLimit, h],
      by simp [getLimit, checkLimit, refilledTokens, h],
      by simp [getLimit, refilledTokens, h]⟩

/-- Example configuration used by witnesses: 30 requests per 60000 ms with the
default burst (the spec's default per-client rate). -/
def exampleConfig : RateLimitConfig := mkRateLimiterConfig 30 60000 none

/-- Example bucket map with no clients. -/
def emptyBuckets : Buckets := fun _ => none

/-- Witness for C5 at a concrete input. -/
theorem getLimit_pure_and_agrees_witness :
    (1 : ℚ) ≤ exampleConfig.burstSize ∧
    (⌊exampleConfig.burstSize⌋ : ℚ) = exampleConfig.burstSize ∧
    ((getLimit exampleConfig emptyBuckets "client-a" 5).2 = emptyBuckets ∧
     (getLimit exampleConfig emptyBuckets "client-a" 5).1.allowed =
       (checkLimit exampleConfig emptyBuckets "client-a" 5).1.allowed ∧
     (getLimit exampleConfig emptyBuckets "client-a" 5).1.remaining =
       (⌊refilledTokens exampleConfig emptyBuckets "client-a" 5⌋ : ℚ)) :=
  ⟨by norm_num [exampleConfig, mkRateLimiterConfig],
   by norm_num [exampleConfig, mkRateLimiterConfig],
   getLimit_pure_and_agrees exampleConfig emptyBuckets "client-a" 5
     (by norm_num [exampleConfig, mkRateLimiterConfig])
     (by norm_num [exampleConfig, mkRateLimiterConfig])⟩

/-- C6 counterexample: the claim quantifies over every rate-limiter
configuration, but the constructor accepts `maxRequests = 0` (no validation in
src/rate-limiter.ts), giving an effective burst of 0; the very first
`checkLimit` for a bucketless client is then denied. -/
theorem checkLimit_first_request_denied_at_zero_config :
    emptyBuckets "fresh-client" = none ∧
    (checkLimit (mkRateLimiterConfig 0 60000 none) emptyBuckets "fresh-client" 0).1.allowed
      = false := by
  constructor
  · rfl
  · norm_num [checkLimit, mkRateLimiterConfig, emptyBuckets]

/-- C6 (amended): for every configuration whose effective burst size is at
least 1 — in particular any configuration with `maxRequests ≥ 1` and the
default burst — and every client with no existing bucket, the first
`checkLimit` returns `allowed = true`. -/
theorem checkLimit_first_request_allowed (cfg : RateLimitConfig) (buckets : Buckets)
    (clientId : String) (now : ℚ)
    (hb : 1 ≤ cfg.burstSize) (hc : buckets clientId = none) :
    (checkLimit cfg buckets clientId now).1.allowed = true := by
  simp [checkLimit, hc, hb]

/-- Witness for the amended C6 at a concrete input. -/
theorem checkLimit_first_request_allowed_witness :
    (1 : ℚ) ≤ exampleConfig.burstSize ∧
    emptyBuckets "fresh-client" = none ∧
    (checkLimit exampleConfig emptyBuckets "fresh-client" 0).1.allowed = true :=
  ⟨by norm_num [exampleConfig, mkRateLimiterConfig], rfl,
   checkLimit_first_request_allowed exampleConfig emptyBuckets "fresh-client" 0
     (by norm_num [exampleConfig, mkRateLimiterConfig]) rfl⟩

/-- One public read/check operation on the rate limiter, tagged with the
wall-clock instant (`Date.now()`) at which it runs. -/
inductive RateLimiterOp where
  | check (clientId : String) (now : ℚ)
  | peek (clientId : String) (now : ℚ)

/-- Wall-clock timestamp of an operation. -/
def RateLimiterOp.time : RateLimiterOp → ℚ
  | .check _ t => t
  | .peek _ t => t

/-- Effect of one operation on the bucket map: `check` runs `checkLimit`,
`peek` runs `getLimit`. -/
def applyOp (cfg : RateLimitConfig) (buckets : Buckets) : RateLimiterOp → Buckets
  | .check c t => (checkLimit cfg buckets c t).2
  | .peek c t => (getLimit cfg buckets c t).2

/-- Runs a sequence of operations left to right. -/
def runOps (cfg : RateLimitConfig) (buckets : Buckets) : List RateLimiterOp → Buckets
  | [] => buckets
  | op :: ops => runOps cfg (applyOp cfg buckets op) ops

/-- Timestamps of the operations are non-decreasing, starting no earlier
than `t`. -/
def TimeOrdered (t : ℚ) : List RateLimiterOp → Prop
  | [] => True
  | op :: ops => t ≤ op.time ∧ TimeOrdered op.time ops

/-- Every stored bucket has tokens in `[0, burstSize]` and was last refilled
no later than `t`. -/
def BucketsInv (cfg : RateLimitConfig) (t : ℚ) (buckets : Buckets) : Prop :=
  ∀ c b, buckets c = some b → 0 ≤ b.tokens ∧ b.tokens ≤ cfg.burstSize ∧ b.lastRefill ≤ t

/-- `getLimit` never changes the bucket map. -/
theorem getLimit_state_eq (cfg : RateLimitConfig) (buckets : Buckets)
    (clientId : String) (now : ℚ) : (getLimit cfg buckets clientId now).2 = buckets := by
  rcases h : buckets clientId with _ | b <;> simp [getLimit, h]

/-- One `checkLimit` call preserves the bucket invariant, moving the time
bound forward to the call instant. -/
theorem checkLimit_preserves_inv (cfg : RateLimitConfig) (buckets : Buckets)
    (clientId : String) (t tNow : ℚ)
    (hmax : 0 ≤ cfg.maxRequests) (hwin : 0 < cfg.windowMs) (hburst : 0 ≤ cfg.burstSize)
    (hinv : BucketsInv cfg t buckets) (ht : t ≤ tNow) :
    BucketsInv cfg tNow (checkLimit cfg buckets clientId tNow).2 := by
  intro c b hb
  by_cases hc : c = clientId
  · subst hc
    simp only [checkLimit, Function.update_same] at hb
    set bucket := (buckets c).getD { tokens := cfg.burstSize, lastRefill := tNow } with hbucket
    have htok : 0 ≤ bucket.tokens := by
      rcases h : buckets c with _ | b0
      · simp [hbucket, h, hburst]
      · simpa [hbucket, h] using (hinv c b0 h).1
    have hlast : bucket.lastRefill ≤ tNow := by
      rcases h : buckets c with _ | b0
      · simp [hbucket, h]
      · simpa [hbucket, h] using le_trans (hinv c b0 h).2.2 ht
    have hadd : 0 ≤ (tNow - bucket.lastRefill) * (cfg.maxRequests / cfg.windowMs) :=
      mul_nonneg (by linarith) (div_nonneg hmax (le_of_lt hwin))
    have h0 : 0 ≤ min cfg.burstSize (bucket.tokens + (tNow - bucket.lastRefill) *
        (cfg.maxRequests / cfg.windowMs)) := le_min hburst (by linarith)
    have hle : min cfg.burstSize (bucket.tokens + (tNow - bucket.lastRefill) *
        (cfg.maxRequests / cfg.windowMs)) ≤ cfg.burstSize := min_le_left _ _
    rw [Option.some_inj] at hb
    subst hb
    by_cases hall : (1 : ℚ) ≤ min cfg.burstSize (bucket.tokens + (tNow - bucket.lastRefill) *
        (cfg.maxRequests / cfg.windowMs))
    · refine ⟨?_, ?_, le_refl _⟩ <;> simp [hall]
    · have hA : (0 : ℚ) ≤ bucket.tokens + (tNow - bucket.lastRefill) *
          (cfg.maxRequests / cfg.windowMs) := by linarith
      refine ⟨?_, ?_, le_refl _⟩ <;> simp [hall, hburst, hA]
  · have : (checkLimit cfg buckets clientId tNow).2 c = buckets c := by
      simp [checkLimit, Function.update_noteq hc]
    rw [this] at hb
    rcases hinv c b hb with ⟨h1, h2, h3⟩
    exact ⟨h1, h2, le_trans h3 ht⟩

/-- Weakening: the invariant at time `t` also holds at any later time. -/
theorem BucketsInv.mono (cfg : RateLimitConfig) (buckets : Buckets) {t t' : ℚ}
    (h : BucketsInv cfg t buckets) (ht : t ≤ t') : BucketsInv cfg t' buckets := by
  intro c b hb
  rcases h c b hb with ⟨h1, h2, h3⟩
  exact ⟨h1, h2, le_trans h3 ht⟩

/-- Running any time-ordered operation sequence preserves the invariant. -/
theorem runOps_preserves_inv (cfg : RateLimitConfig)
    (hmax : 0 ≤ cfg.maxRequests) (hwin : 0 < cfg.windowMs) (hburst : 0 ≤ cfg.burstSize) :
    ∀ (ops : List RateLimiterOp) (buckets : Buckets) (t : ℚ),
      BucketsInv cfg t buckets → TimeOrdered t ops →
      BucketsInv cfg (ops.foldl (fun _ op => op.time) t) (runOps cfg buckets ops) := by
  intro ops
  induction ops with
  | nil =>
    intro buckets t hinv _
    exact hinv
  | cons op ops ih =>
    intro buckets t hinv hord
    rcases hord with ⟨hle, hord⟩
    rcases op with ⟨cl, tn⟩ | ⟨cl, tn⟩
    · exact ih _ tn (checkLimit_preserves_inv cfg buckets cl t tn hmax hwin hburst hinv hle) hord
    · have hstate : runOps cfg buckets (RateLimiterOp.peek cl tn :: ops) =
          runOps cfg buckets ops := by
        simp [runOps, applyOp, getLimit_state_eq]
      rw [show (RateLimiterOp.peek cl tn :: ops).foldl (fun _ op => op.time) t =
          ops.foldl (fun _ op => op.time) tn from rfl, hstate]
      exact ih _ tn (hinv.mono cfg buckets hle) hord

/-- C3: for every configuration with nonnegative rate parameters, every
initial bucket map satisfying the invariant, and every sequence of
`checkLimit`/`getLimit` calls at non-decreasing timestamps, the stored token
count of every bucket stays within `[0, burstSize]` after every operation
(every prefix of the sequence), and each `checkLimit` refill sets the stored
count to `min(burstSize, tokens + (now - lastRefill) * maxRequests/windowMs)`
before consuming. -/
theorem rateLimiter_tokens_in_range (cfg : RateLimitConfig) (buckets : Buckets)
    (ops : List RateLimiterOp) (t0 : ℚ)
    (hmax : 0 ≤ cfg.maxRequests) (hwin : 0 < cfg.windowMs) (hburst : 0 ≤ cfg.burstSize)
    (hinv : BucketsInv cfg t0 buckets) (hord : TimeOrdered t0 ops) :
    (∀ n c b, runOps cfg buckets (ops.take n) c = some b →
       0 ≤ b.tokens ∧ b.tokens ≤ cfg.burstSize) ∧
    (∀ c b tNow, buckets c = some b →
       (checkLimit cfg buckets c tNow).2 c =
         some (TokenBucket.mk
           (min cfg.burstSize
              (b.tokens + (tNow - b.lastRefill) * (cfg.maxRequests / cfg.windowMs)) -
            (if (checkLimit cfg buckets c tNow).1.allowed then 1 else 0)) tNow)) := by
  constructor
  · intro n c b hb
    have hordTake : TimeOrdered t0 (ops.take n) := by
      clear hb hinv
      induction ops generalizing t0 n with
      | nil => cases n <;> simp [TimeOrdered]
      | cons op ops ih =>
        cases n with
        | zero => simp [TimeOrdered]
        | succ m =>
          rcases hord with ⟨h1, h2⟩
          exact ⟨h1, ih _ h2 m⟩
    have := runOps_preserves_inv cfg hmax hwin hburst (ops.take n) buckets t0 hinv hordTake
    rcases this c b hb with ⟨h1, h2, _⟩
    exact ⟨h1, h2⟩
  · intro c b tNow hb
    rw [checkLimit_stored_bucket cfg buckets c tNow]
    have : refilledTokens cfg buckets c tNow =
        min cfg.burstSize (b.tokens + (tNow - b.lastRefill) * (cfg.maxRequests / cfg.windowMs)) := by
      simp [refilledTokens, hb]
    rw [this]

/-- Witness for C3 at a concrete input: two checks and a peek for one client. -/
theorem rateLimiter_tokens_in_range_witness :
    (0 : ℚ) ≤ exampleConfig.maxRequests ∧ (0 : ℚ) < exampleConfig.windowMs ∧
    (0 : ℚ) ≤ exampleConfig.burstSize ∧
    BucketsInv exampleConfig 0 emptyBuckets ∧
    TimeOrdered 0 [RateLimiterOp.check "c" 1, RateLimiterOp.peek "c" 2,
      RateLimiterOp.check "c" 3] ∧
    (∀ n c b, runOps exampleConfig emptyBuckets
        ([RateLimiterOp.check "c" 1, RateLimiterOp.peek "c" 2,
          RateLimiterOp.check "c" 3].take n) c = some b →
       0 ≤ b.tokens ∧ b.tokens ≤ exampleConfig.burstSize) :=
  ⟨by norm_num [exampleConfig, mkRateLimiterConfig],
   by norm_num [exampleConfig, mkRateLimiterConfig],
   by norm_num [exampleConfig, mkRateLimiterConfig],
   by intro c b hb; simp [emptyBuckets] at hb,
   by norm_num [TimeOrdered, RateLimiterOp.time],
   (rateLimiter_tokens_in_range exampleConfig emptyBuckets
      [RateLimiterOp.check "c" 1, RateLimiterOp.peek "c" 2, RateLimiterOp.check "c" 3] 0
      (by norm_num [exampleConfig, mkRateLimiterConfig])
      (by norm_num [exampleConfig, mkRateLimiterConfig])
      (by norm_num [exampleConfig, mkRateLimiterConfig])
      (by intro c b hb; simp [emptyBuckets] at hb)
      (by norm_num [TimeOrdered, RateLimiterOp.time])).1⟩

/-- Folds a run of `checkLimit` calls for one client over the bucket map,
counting the calls that return `allowed = true` (the quantity bounded by the
spec's window property for src/rate-limiter.ts). -/
def countAllowed (cfg : RateLimitConfig) (buckets : Buckets) (clientId : String) :
    List ℚ → ℕ × Buckets
  | [] => (0, buckets)
  | t :: ts =>
    let r := checkLimit cfg buckets clientId t
    let rest := countAllowed cfg r.2 clientId ts
    ((if r.1.allowed then 1 else 0) + rest.1, rest.2)

/-- Potential argument: along a time-ordered run of `checkLimit` calls for one
client, the number of allowed calls plus the final token count is bounded by
the initial token count plus the total refill over the elapsed time. -/
theorem countAllowed_potential (cfg : RateLimitConfig) (clientId : String)
    (hmax : 0 ≤ cfg.maxRequests) (hwin : 0 < cfg.windowMs) (hburst : 0 ≤ cfg.burstSize) :
    ∀ (ts : List ℚ) (buckets : Buckets) (b : TokenBucket),
      buckets clientId = some b → 0 ≤ b.tokens →
      List.Chain (· ≤ ·) b.lastRefill ts →
      ∃ bf : TokenBucket,
        (countAllowed cfg buckets clientId ts).2 clientId = some bf ∧
        0 ≤ bf.tokens ∧
        bf.lastRefill = ts.getLastD b.lastRefill ∧
        ((countAllowed cfg buckets clientId ts).1 : ℚ) + bf.tokens ≤
          b.tokens + (cfg.maxRequests / cfg.windowMs) * (ts.getLastD b.lastRefill - b.lastRefill)
    := by
  intro ts
  induction ts with
  | nil =>
    intro buckets b hb htok _
    exact ⟨b, hb, htok, by simp, by simp [countAllowed]⟩
  | cons t ts ih =>
    intro buckets b hb htok hchain
    rw [List.chain_cons] at hchain
    rcases hchain with ⟨hbt, hchain⟩
    have hrate : 0 ≤ cfg.maxRequests / cfg.windowMs := div_nonneg hmax (le_of_lt hwin)
    have hrefill : refilledTokens cfg buckets clientId t =
        min cfg.burstSize (b.tokens + (t - b.lastRefill) * (cfg.maxRequests / cfg.windowMs)) := by
      simp [refilledTokens, hb]
    have hX0 : 0 ≤ refilledTokens cfg buckets clientId t := by
      rw [hrefill]
      exact le_min hburst (by nlinarith)
    have hXburst : refilledTokens cfg buckets clientId t ≤ cfg.burstSize := by
      rw [hrefill]; exact min_le_left _ _
    have hXle : refilledTokens cfg buckets clientId t ≤
        b.tokens + (t - b.lastRefill) * (cfg.maxRequests / cfg.windowMs) := by
      rw [hrefill]; exact min_le_right _ _
    set r := checkLimit cfg buckets clientId t with hr
    set d : ℚ := if r.1.allowed then 1 else 0 with hd
    have hstored : r.2 clientId =
        some (TokenBucket.mk (refilledTokens cfg buckets clientId t - d) t) :=
      checkLimit_stored_bucket cfg buckets clientId t
    have hd0 : 0 ≤ refilledTokens cfg buckets clientId t - d := by
      rcases hal : r.1.allowed with _ | _
      · simpa [hd, hal] using hX0
      · have : 1 ≤ refilledTokens cfg buckets clientId t := by
          have := checkLimit_allowed_eq cfg buckets clientId t
          rw [← hr, hal] at this
          exact of_decide_eq_true this.symm
        simp only [hd, hal, if_true]
        linarith
    obtain ⟨bf, hbf, hbf0, hbflast, hbound⟩ :=
      ih r.2 (TokenBucket.mk (refilledTokens cfg buckets clientId t - d) t) hstored hd0
        (by simpa using hchain)
    refine ⟨bf, ?_, hbf0, ?_, ?_⟩
    · simpa [countAllowed, ← hr] using hbf
    · rw [List.getLastD_cons]
      simpa [countAllowed, ← hr] using hbflast
    · have hcount : ((countAllowed cfg buckets clientId (t :: ts)).1 : ℚ) =
          d + ((countAllowed cfg r.2 clientId ts).1 : ℚ) := by
        rcases hal : r.1.allowed with _ | _ <;>
          simp [countAllowed, ← hr, hal, hd]
      rw [hcount, List.getLastD_cons]
      simp only at hbound
      have hlast' : ts.getLastD t - b.lastRefill =
          (t - b.lastRefill) + (ts.getLastD t - t) := by ring
      rw [hlast']
      nlinarith [hbound, hXle]

/-- C4: during any run of `checkLimit` calls for one client whose
non-decreasing timestamps all lie in a window of length `windowMs`, at most
`burstSize + maxRequests` of the calls return `allowed = true`. -/
theorem rateLimiter_window_allowed_bound (cfg : RateLimitConfig) (buckets : Buckets)
    (clientId : String) (t1 : ℚ) (ts : List ℚ)
    (hmax : 0 ≤ cfg.maxRequests) (hwin : 0 < cfg.windowMs) (hburst : 0 ≤ cfg.burstSize)
    (hchain : List.Chain (· ≤ ·) t1 ts)
    (hwindow : ts.getLastD t1 ≤ t1 + cfg.windowMs)
    (hstart : ∀ b, buckets clientId = some b → 0 ≤ b.tokens ∧ b.lastRefill ≤ t1) :
    ((countAllowed cfg buckets clientId (t1 :: ts)).1 : ℚ) ≤
      cfg.burstSize + cfg.maxRequests := by
  have hrate : 0 ≤ cfg.maxRequests / cfg.windowMs := div_nonneg hmax (le_of_lt hwin)
  have hb0 : 0 ≤ ((buckets clientId).getD
      { tokens := cfg.burstSize, lastRefill := t1 }).tokens ∧
      ((buckets clientId).getD { tokens := cfg.burstSize, lastRefill := t1 }).lastRefill ≤ t1 := by
    rcases h : buckets clientId with _ | b
    · simp [hburst]
    · simpa using hstart b h
  have hX0 : 0 ≤ refilledTokens cfg buckets clientId t1 := by
    refine le_min hburst ?_
    nlinarith [hb0.1, hb0.2, hrate]
  have hXburst : refilledTokens cfg buckets clientId t1 ≤ cfg.burstSize :=
    min_le_left _ _
  set r := checkLimit cfg buckets clientId t1 with hr
  set d : ℚ := if r.1.allowed then 1 else 0 with hd
  have hstored : r.2 clientId =
      some (TokenBucket.mk (refilledTokens cfg buckets clientId t1 - d) t1) :=
    checkLimit_stored_bucket cfg buckets clientId t1
  have hd0 : 0 ≤ refilledTokens cfg buckets clientId t1 - d := by
    rcases hal : r.1.allowed with _ | _
    · simpa [hd, hal] using hX0
    · have : 1 ≤ refilledTokens cfg buckets clientId t1 := by
        have := checkLimit_allowed_eq cfg buckets clientId t1
        rw [← hr, hal] at this
        exact of_decide_eq_true this.symm
      simp only [hd, hal, if_true]
      linarith
  obtain ⟨bf, hbf, hbf0, hbflast, hbound⟩ :=
    countAllowed_potential cfg clientId hmax hwin hburst ts r.2
      (TokenBucket.mk (refilledTokens cfg buckets clientId t1 - d) t1) hstored hd0
      (by simpa using hchain)
  have hcount : ((countAllowed cfg buckets clientId (t1 :: ts)).1 : ℚ) =
      d + ((countAllowed cfg r.2 clientId ts).1 : ℚ) := by
    rcases hal : r.1.allowed with _ | _ <;>
      simp [countAllowed, ← hr, hal, hd]
  rw [hcount]
  simp only at hbound
  have hmul : (cfg.maxRequests / cfg.windowMs) * (ts.getLastD t1 - t1) ≤ cfg.maxRequests := by
    have h1 : (cfg.maxRequests / cfg.windowMs) * (ts.getLastD t1 - t1) ≤
        (cfg.maxRequests / cfg.windowMs) * cfg.windowMs := by
      apply mul_le_mul_of_nonneg_left _ hrate
      linarith
    have h2 : (cfg.maxRequests / cfg.windowMs) * cfg.windowMs = cfg.maxRequests :=
      div_mul_cancel₀ _ (ne_of_gt hwin)
    linarith
  nlinarith [hbound, hbf0]

/-- Witness for C4 at the spec's boundary configuration (`maxRequests = 1`,
`windowMs = 1000`): two calls in the same second admit at most
`burst + maxRequests = 2`. -/
theorem rateLimiter_window_allowed_bound_witness :
    (0 : ℚ) ≤ exampleConfig.maxRequests ∧ (0 : ℚ) < exampleConfig.windowMs ∧
    (0 : ℚ) ≤ exampleConfig.burstSize ∧
    List.Chain (· ≤ ·) (0 : ℚ) [500] ∧
    ([(500 : ℚ)].getLastD 0 ≤ 0 + exampleConfig.windowMs) ∧
    ((countAllowed exampleConfig emptyBuckets "client-b" [0, 500]).1 : ℚ) ≤
      exampleConfig.burstSize + exampleConfig.maxRequests :=
  ⟨by norm_num [exampleConfig, mkRateLimiterConfig],
   by norm_num [exampleConfig, mkRateLimiterConfig],
   by norm_num [exampleConfig, mkRateLimiterConfig],
   by norm_num [List.chain_cons],
   by norm_num [exampleConfig, mkRateLimiterConfig],
   rateLimiter_window_allowed_bound exampleConfig emptyBuckets "client-b" 0 [500]
     (by norm_num [exampleConfig, mkRateLimiterConfig])
     (by norm_num [exampleConfig, mkRateLimiterConfig])
     (by norm_num [exampleConfig, mkRateLimiterConfig])
     (by norm_num [List.chain_cons])
     (by norm_num [exampleConfig, mkRateLimiterConfig])
     (by intro b hb; simp [emptyBuckets] at hb)⟩

/-- An immutable descriptor of one downstream tool; its payload is opaque to
the single-flight argument. -/
structure ToolDescriptor where
  payload : ℕ
deriving DecidableEq

/-- Modelled from the spec: per-tool-name slice of the schema cache state.
The SchemaCache implementation (schema-cache.ts) is not part of the repository
snapshot — only the review report (src/unnamed/part_016) quoting its in-flight
check/insert and the race test (src/race-condition-test.ts) are — so the state
follows spec §4.4: an optional in-flight fetch (identified by a fetch id), an
optional cached entry with a freshness bit (entry present and not past TTL),
and the count of downstream fetches issued so far for this tool. -/
structure SchemaCacheState where
  inFlight : Option ℕ
  cached : Option ToolDescriptor
  cachedFresh : Bool
  fetchCount : ℕ
deriving DecidableEq

/-- What an entering caller of `getToolSchema` ends up waiting on: either the
in-flight fetch with a given id, or an immediately returned clone of the fresh
cached descriptor. -/
inductive CallerTicket where
  | awaitFetch (id : ℕ)
  | cachedValue (d : ToolDescriptor)
deriving DecidableEq

/-- Modelled from the spec (§4.4 `getToolSchema`): (1) if an in-flight promise
exists for the name, await it; (2) else if the entry exists and is not past
TTL, return a clone of the descriptor; (3) else install a fresh in-flight
promise and issue a downstream fetch.  Per the spec, single-flight is enforced
by checking-and-inserting the in-flight entry under a per-key lock, so this
entry step is atomic and a concurrent execution of two callers is an
interleaving of two such steps. -/
def getToolSchemaEnter (s : SchemaCacheState) : SchemaCacheState × CallerTicket :=
  match s.inFlight with
  | some id => (s, .awaitFetch id)
  | none =>
    match s.cachedFresh, s.cached with
    | true, some d => (s, .cachedValue d)
    | _, _ =>
      let id := s.fetchCount + 1
      ({ s with inFlight := some id, fetchCount := id }, .awaitFetch id)

/-- The descriptor a caller finally receives, given the results of the
downstream fetches (fetch id → descriptor). -/
def resolveTicket (results : ℕ → ToolDescriptor) : CallerTicket → ToolDescriptor
  | .awaitFetch id => results id
  | .cachedValue d => d

/-- C1 (modelled from the spec): if no fresh cached entry and no in-flight
fetch exist for a tool, then under any interleaving of two concurrent
`getToolSchema` callers (their atomic entry steps run in one of the two
orders, which this sequential composition covers symmetrically) exactly one
downstream fetch is issued, and both callers receive the result of that one
fetch. -/
theorem schemaCache_single_flight (s : SchemaCacheState)
    (hin : s.inFlight = none) (hfresh : s.cachedFresh = false) :
    (getToolSchemaEnter (getToolSchemaEnter s).1).1.fetchCount = s.fetchCount + 1 ∧
    (getToolSchemaEnter s).2 = CallerTicket.awaitFetch (s.fetchCount + 1) ∧
    (getToolSchemaEnter (getToolSchemaEnter s).1).2 =
      CallerTicket.awaitFetch (s.fetchCount + 1) ∧
    ∀ results : ℕ → ToolDescriptor,
      resolveTicket results (getToolSchemaEnter s).2 = results (s.fetchCount + 1) ∧
      resolveTicket results (getToolSchemaEnter (getToolSchemaEnter s).1).2 =
        results (s.fetchCount + 1) := by
  refine ⟨?_, ?_, ?_, ?_⟩ <;>
    simp [getToolSchemaEnter, hin, hfresh, resolveTicket]

/-- Witness for C1 at a concrete cold-cache state. -/
theorem schemaCache_single_flight_witness :
    (SchemaCacheState.mk none none false 0).inFlight = none ∧
    (SchemaCacheState.mk none none false 0).cachedFresh = false ∧
    ((getToolSchemaEnter (getToolSchemaEnter (SchemaCacheState.mk none none false 0)).1).1.fetchCount
       = 1 ∧
     (getToolSchemaEnter (SchemaCacheState.mk none none false 0)).2 =
       CallerTicket.awaitFetch 1) :=
  ⟨rfl, rfl,
   ((schemaCache_single_flight (SchemaCacheState.mk none none false 0) rfl rfl).1),
   ((schemaCache_single_flight (SchemaCacheState.mk none none false 0) rfl rfl).2.1)⟩

/-- JSON values as consumed by `JSON.stringify` and produced by `JSON.parse`.
Numbers are modelled as integers (the audit and config records serialize
integral counts, hashes and millisecond values); object fields keep their
insertion order, as JavaScript objects do. -/
inductive Json where
  | null
  | bool (b : Bool)
  | num (n : ℤ)
  | str (s : String)
  | arr (elems : List Json)
  | obj (fields : List (String × Json))

/-- Decimal digits of a natural number, most significant first (the integer
part of the `JSON.stringify` number serialization). -/
def natDigits (n : ℕ) : List Char :=
  if n < 10 then [Nat.digitChar n]
  else natDigits (n / 10) ++ [Nat.digitChar (n % 10)]
decreasing_by exact Nat.div_lt_self (by omega) (by omega)

/-- `JSON.stringify` escaping of one string character (ECMA-262
QuoteJSONString): two-character escapes for quote, backslash, backspace, tab,
newline, form feed and carriage return; `\u00XX` for the other control
characters; the character itself otherwise. -/
def escapeChar (c : Char) : List Char :=
  if c = '"' then ['\\', '"']
  else if c = '\\' then ['\\', '\\']
  else if c = '\x08' then ['\\', 'b']
  else if c = '\t' then ['\\', 't']
  else if c = '\n' then ['\\', 'n']
  else if c = '\x0c' then ['\\', 'f']
  else if c = '\r' then ['\\', 'r']
  else if c.toNat < 32 then
    ['\\', 'u', '0', '0', Nat.digitChar (c.toNat / 16), Nat.digitChar (c.toNat % 16)]
  else [c]

/-- Escaped body of a JSON string literal. -/
def escapeBody : List Char → List Char
  | [] => []
  | c :: cs => escapeChar c ++ escapeBody cs

/-- Characters of the `null` keyword. -/
def nullLit : List Char := ['n', 'u', 'l', 'l']

/-- Characters of the `true` keyword. -/
def trueLit : List Char := ['t', 'r', 'u', 'e']

/-- Characters of the `false` keyword. -/
def falseLit : List Char := ['f', 'a', 'l', 's', 'e']

mutual

/-- `JSON.stringify` on a JSON value, as a character list: no added
whitespace, object fields in insertion order. -/
def jsonEncode : Json → List Char
  | .null => nullLit
  | .bool true => trueLit
  | .bool false => falseLit
  | .num n => if n < 0 then '-' :: natDigits n.natAbs else natDigits n.natAbs
  | .str s => '"' :: (escapeBody s.data ++ ['"'])
  | .arr [] => ['[', ']']
  | .arr (e :: es) => '[' :: (jsonEncode e ++ encodeArrTail es)
  | .obj [] => ['{', '}']
  | .obj (f :: fs) => '{' :: (encodeField f ++ encodeObjTail fs)

/-- Serialization of the remaining array elements after the first. -/
def encodeArrTail : List Json → List Char
  | [] => [']']
  | e :: es => ',' :: (jsonEncode e ++ encodeArrTail es)

/-- Serialization of one object field, `"key":value`. -/
def encodeField : String × Json → List Char
  | (k, v) => '"' :: (escapeBody k.data ++ ('"' :: ':' :: jsonEncode v))

/-- Serialization of the remaining object fields after the first. -/
def encodeObjTail : List (String × Json) → List Char
  | [] => ['}']
  | f :: fs => ',' :: (encodeField f ++ encodeObjTail fs)

end

/-- Consumes an expected literal keyword suffix. -/
def expects : List Char → List Char → Option (List Char)
  | [], input => some input
  | _ :: _, [] => none
  | p :: ps, c :: rest => if c = p then expects ps rest else none

/-- Value of one hexadecimal digit character (lowercase, as emitted by
JSON.stringify escapes). -/
def hexVal (c : Char) : Option ℕ :=
  if '0' ≤ c ∧ c ≤ '9' then some (c.toNat - 48)
  else if 'a' ≤ c ∧ c ≤ 'f' then some (c.toNat - 87)
  else none

/-- Decodes one two-character JSON string escape. -/
def unescapeChar (c : Char) : Option Char :=
  if c = '"' then some '"'
  else if c = '\\' then some '\\'
  else if c = '/' then some '/'
  else if c = 'b' then some '\x08'
  else if c = 't' then some '\t'
  else if c = 'n' then some '\n'
  else if c = 'f' then some '\x0c'
  else if c = 'r' then some '\r'
  else none

/-- Parses a JSON string body up to the closing quote, decoding escapes. -/
def parseStrBody : List Char → Option (List Char × List Char)
  | [] => none
  | c :: rest =>
    if c = '"' then some ([], rest)
    else if c = '\\' then
      match rest with
      | [] => none
      | e :: rest2 =>
        if e = 'u' then
          match rest2 with
          | h1 :: h2 :: h3 :: h4 :: rest3 =>
            match hexVal h1, hexVal h2, hexVal h3, hexVal h4 with
            | some v1, some v2, some v3, some v4 =>
              match parseStrBody rest3 with
              | some (s, r) =>
                some (Char.ofNat (((v1 * 16 + v2) * 16 + v3) * 16 + v4) :: s, r)
              | none => none
            | _, _, _, _ => none
          | _ => none
        else
          match unescapeChar e with
          | some c2 =>
            match parseStrBody rest2 with
            | some (s, r) => some (c2 :: s, r)
            | none => none
          | none => none
    else
      match parseStrBody rest with
      | some (s, r) => some (c :: s, r)
      | none => none

/-- Accumulating decimal-digit parser; stops at the first non-digit. -/
def parseNatAux : List Char → ℕ → ℕ × List Char
  | [], acc => (acc, [])
  | c :: rest, acc =>
    if c.isDigit then parseNatAux rest (acc * 10 + (c.toNat - 48)) else (acc, c :: rest)

/-- Parses the tail of the `null` keyword. -/
def parseNull (rest : List Char) : Option (Json × List Char) :=
  match expects ['u', 'l', 'l'] rest with
  | some r => some (Json.null, r)
  | none => none

/-- Parses the tail of the `true` keyword. -/
def parseTrue (rest : List Char) : Option (Json × List Char) :=
  match expects ['r', 'u', 'e'] rest with
  | some r => some (Json.bool true, r)
  | none => none

/-- Parses the tail of the `false` keyword. -/
def parseFalse (rest : List Char) : Option (Json × List Char) :=
  match expects ['a', 'l', 's', 'e'] rest with
  | some r => some (Json.bool false, r)
  | none => none

/-- Parses a string literal after its opening quote. -/
def parseStrLit (rest : List Char) : Option (Json × List Char) :=
  match parseStrBody rest with
  | some (s, r) => some (Json.str (String.mk s), r)
  | none => none

/-- Parses a negative number after its minus sign. -/
def parseNegNum (rest : List Char) : Option (Json × List Char) :=
  match rest with
  | [] => none
  | c2 :: rest2 =>
    if c2.isDigit then
      match parseNatAux (c2 :: rest2) 0 with
      | (n, r) => some (Json.num (-(n : ℤ)), r)
    else none

/-- Parses a nonnegative number starting with digit `c`. -/
def parsePosNum (c : Char) (rest : List Char) : Option (Json × List Char) :=
  match parseNatAux (c :: rest) 0 with
  | (n, r) => some (Json.num (n : ℤ), r)

mutual

/-- Strict parser for the canonical JSON emitted by `JSON.stringify` (no
whitespace tolerated), modelling `JSON.parse` on such input.  `fuel` bounds
the nesting recursion; the top-level entry supplies input length + 1, which
suffices because every recursive call consumes at least one character. -/
def parseVal : ℕ → List Char → Option (Json × List Char)
  | 0, _ => none
  | _ + 1, [] => none
  | fuel + 1, c :: rest =>
    if c = 'n' then parseNull rest
    else if c = 't' then parseTrue rest
    else if c = 'f' then parseFalse rest
    else if c = '"' then parseStrLit rest
    else if c = '-' then parseNegNum rest
    else if c = '[' then parseArrStart fuel rest
    else if c = '{' then parseObjStart fuel rest
    else if c.isDigit then parsePosNum c rest
    else none
termination_by fuel _ => (fuel, 0)

/-- Parses an array body after the opening bracket. -/
def parseArrStart (fuel : ℕ) : List Char → Option (Json × List Char)
  | [] => none
  | r0 :: r1 =>
    if r0 = ']' then some (Json.arr [], r1)
    else
      match parseVal fuel (r0 :: r1) with
      | some (e, r2) =>
        match parseArrTail fuel r2 with
        | some (es, r3) => some (Json.arr (e :: es), r3)
        | none => none
      | none => none
termination_by _ => (fuel, 3)

/-- Parses an object body after the opening brace. -/
def parseObjStart (fuel : ℕ) : List Char → Option (Json × List Char)
  | [] => none
  | r0 :: r1 =>
    if r0 = '}' then some (Json.obj [], r1)
    else
      match parseField fuel (r0 :: r1) with
      | some (f, r2) =>
        match parseObjTail fuel r2 with
        | some (fs, r3) => some (Json.obj (f :: fs), r3)
        | none => none
      | none => none
termination_by _ => (fuel, 3)

/-- Parses `,value...]` continuations of an array. -/
def parseArrTail : ℕ → List Char → Option (List Json × List Char)
  | 0, _ => none
  | _ + 1, [] => none
  | fuel + 1, c :: rest =>
    if c = ']' then some ([], rest)
    else if c = ',' then
      match parseVal fuel rest with
      | some (e, r1) =>
        match parseArrTail fuel r1 with
        | some (es, r2) => some (e :: es, r2)
        | none => none
      | none => none
    else none
termination_by fuel _ => (fuel, 1)

/-- Parses one `"key":value` object field. -/
def parseField : ℕ → List Char → Option ((String × Json) × List Char)
  | 0, _ => none
  | _ + 1, [] => none
  | fuel + 1, c :: rest =>
    if c = '"' then
      match parseStrBody rest with
      | some (k, r1) =>
        match r1 with
        | [] => none
        | c2 :: r2 =>
          if c2 = ':' then
            match parseVal fuel r2 with
            | some (v, r3) => some ((String.mk k, v), r3)
            | none => none
          else none
      | none => none
    else none
termination_by fuel _ => (fuel, 1)

/-- Parses `,"key":value...}` continuations of an object. -/
def parseObjTail : ℕ → List Char → Option (List (String × Json) × List Char)
  | 0, _ => none
  | _ + 1, [] => none
  | fuel + 1, c :: rest =>
    if c = '}' then some ([], rest)
    else if c = ',' then
      match parseField fuel rest with
      | some (f, r1) =>
        match parseObjTail fuel r1 with
        | some (fs, r2) => some (f :: fs, r2)
        | none => none
      | none => none
    else none
termination_by fuel _ => (fuel, 2)

end

/-- `JSON.parse` on one canonical serialized line: parse a value and require
the input to be fully consumed. -/
def jsonParse (s : List Char) : Option Json :=
  match parseVal (s.length + 1) s with
  | some (j, []) => some j
  | _ => none

/-- True when the input does not start with a decimal digit, so a preceding
number parse stops exactly there.  Canonical JSON continuations (separators,
closers, end of line) all satisfy it. -/
def nonDigitHead : List Char → Bool
  | [] => true
  | c :: _ => !c.isDigit

/-- Consuming an expected keyword succeeds on exactly that prefix. -/
theorem expects_append (p rest : List Char) : expects p (p ++ rest) = some rest := by
  induction p with
  | nil => simp [expects]
  | cons c cs ih => simp [expects, ih]

/-- Decimal digit characters are digits. -/
theorem digitChar_isDigit (d : ℕ) (h : d < 10) : (Nat.digitChar d).isDigit = true := by
  interval_cases d <;> decide

/-- Code point of a decimal digit character. -/
theorem digitChar_toNat (d : ℕ) (h : d < 10) : (Nat.digitChar d).toNat = 48 + d := by
  interval_cases d <;> decide

/-- Hex digits emitted by the escape encoder decode to their value. -/
theorem hexVal_digitChar (v : ℕ) (h : v < 16) : hexVal (Nat.digitChar v) = some v := by
  interval_cases v <;> decide

/-- Every character of a serialized natural number is a decimal digit. -/
theorem natDigits_all_digits : ∀ n : ℕ, ∀ c ∈ natDigits n, c.isDigit = true := by
  intro n
  induction n using Nat.strong_induction_on with
  | _ n ih =>
    intro c hc
    by_cases h : n < 10
    · rw [natDigits, if_pos h] at hc
      simp at hc
      subst hc
      exact digitChar_isDigit n h
    · rw [natDigits, if_neg h] at hc
      rcases List.mem_append.mp hc with h1 | h2
      · exact ih (n / 10) (Nat.div_lt_self (by omega) (by omega)) c h1
      · simp at h2
        subst h2
        exact digitChar_isDigit (n % 10) (Nat.mod_lt _ (by omega))

/-- A serialized natural number is never empty. -/
theorem natDigits_ne_nil (n : ℕ) : natDigits n ≠ [] := by
  by_cases h : n < 10
  · rw [natDigits, if_pos h]
    simp
  · rw [natDigits, if_neg h]
    simp

/-- The digit parser slides over a serialized natural number, scaling the
accumulator. -/
theorem parseNatAux_natDigits : ∀ n acc rest,
    parseNatAux (natDigits n ++ rest) acc =
      parseNatAux rest (acc * 10 ^ (natDigits n).length + n) := by
  intro n
  induction n using Nat.strong_induction_on with
  | _ n ih =>
    intro acc rest
    by_cases h : n < 10
    · rw [natDigits, if_pos h]
      simp [parseNatAux, digitChar_isDigit n h, digitChar_toNat n h]
    · rw [natDigits, if_neg h]
      rw [List.append_assoc, List.singleton_append,
        ih (n / 10) (Nat.div_lt_self (by omega) (by omega))]
      have h10 : (n % 10) < 10 := Nat.mod_lt _ (by omega)
      simp only [parseNatAux, digitChar_isDigit (n % 10) h10, digitChar_toNat (n % 10) h10,
        if_true, List.length_append, List.length_singleton]
      congr 1
      have : 48 + n % 10 - 48 = n % 10 := by omega
      rw [this, pow_succ]
      have hmod : 10 * (n / 10) + n % 10 = n := Nat.div_add_mod n 10
      ring_nf
      omega

/-- The digit parser stops immediately on a non-digit head. -/
theorem parseNatAux_stop (rest : List Char) (acc : ℕ) (h : nonDigitHead rest = true) :
    parseNatAux rest acc = (acc, rest) := by
  cases rest with
  | nil => simp [parseNatAux]
  | cons c cs =>
    simp [nonDigitHead] at h
    simp [parseNatAux, h]

/-- Round trip for serialized natural numbers. -/
theorem parseNatAux_roundtrip (n : ℕ) (rest : List Char) (h : nonDigitHead rest = true) :
    parseNatAux (natDigits n ++ rest) 0 = (n, rest) := by
  rw [parseNatAux_natDigits, parseNatAux_stop rest _ h]
  simp

/-- Round trip for escaped string bodies: parsing the escaped body followed by
the closing quote recovers the original characters. -/
theorem parseStrBody_escape : ∀ cs rest,
    parseStrBody (escapeBody cs ++ ('"' :: rest)) = some (cs, rest) := by
  intro cs
  induction cs with
  | nil =>
    intro rest
    rw [show escapeBody [] ++ '"' :: rest = '"' :: rest from by simp [escapeBody]]
    rw [parseStrBody.eq_def]
    simp
  | cons c cs ih =>
    intro rest
    by_cases h1 : c = '"'
    · subst h1
      rw [show escapeBody ('"' :: cs) ++ '"' :: rest =
        '\\' :: '"' :: (escapeBody cs ++ '"' :: rest) from by simp [escapeBody, escapeChar]]
      rw [parseStrBody.eq_def]
      simp [unescapeChar, ih]
    · by_cases h2 : c = '\\'
      · subst h2
        rw [show escapeBody ('\\' :: cs) ++ '"' :: rest =
          '\\' :: '\\' :: (escapeBody cs ++ '"' :: rest) from by simp [escapeBody, escapeChar]]
        rw [parseStrBody.eq_def]
        simp [unescapeChar, ih]
      · by_cases h3 : c = '\x08'
        · subst h3
          rw [show escapeBody ('\x08' :: cs) ++ '"' :: rest =
            '\\' :: 'b' :: (escapeBody cs ++ '"' :: rest) from by simp [escapeBody, escapeChar]]
          rw [parseStrBody.eq_def]
          simp [unescapeChar, ih]
        · by_cases h4 : c = '\t'
          · subst h4
            rw [show escapeBody ('\t' :: cs) ++ '"' :: rest =
              '\\' :: 't' :: (escapeBody cs ++ '"' :: rest) from by simp [escapeBody, escapeChar]]
            rw [parseStrBody.eq_def]
            simp [unescapeChar, ih]
          · by_cases h5 : c = '\n'
            · subst h5
              rw [show escapeBody ('\n' :: cs) ++ '"' :: rest =
                '\\' :: 'n' :: (escapeBody cs ++ '"' :: rest) from by
                  simp [escapeBody, escapeChar]]
              rw [parseStrBody.eq_def]
              simp [unescapeChar, ih]
            · by_cases h6 : c = '\x0c'
              · subst h6
                rw [show escapeBody ('\x0c' :: cs) ++ '"' :: rest =
                  '\\' :: 'f' :: (escapeBody cs ++ '"' :: rest) from by
                    simp [escapeBody, escapeChar]]
                rw [parseStrBody.eq_def]
                simp [unescapeChar, ih]
              · by_cases h7 : c = '\r'
                · subst h7
                  rw [show escapeBody ('\r' :: cs) ++ '"' :: rest =
                    '\\' :: 'r' :: (escapeBody cs ++ '"' :: rest) from by
                      simp [escapeBody, escapeChar]]
                  rw [parseStrBody.eq_def]
                  simp [unescapeChar, ih]
                · by_cases h8 : c.toNat < 32
                  · have e0 : hexVal '0' = some 0 := by decide
                    have e1 : hexVal (Nat.digitChar (c.toNat / 16)) = some (c.toNat / 16) :=
                      hexVal_digitChar _ (by omega)
                    have e2 : hexVal (Nat.digitChar (c.toNat % 16)) = some (c.toNat % 16) :=
                      hexVal_digitChar _ (by omega)
                    rw [show escapeBody (c :: cs) ++ '"' :: rest =
                      '\\' :: 'u' :: '0' :: '0' :: Nat.digitChar (c.toNat / 16) ::
                        Nat.digitChar (c.toNat % 16) :: (escapeBody cs ++ '"' :: rest) from by
                        simp [escapeBody, escapeChar, h1, h2, h3, h4, h5, h6, h7, h8]]
                    rw [parseStrBody.eq_def]
                    simp only [e0, e1, e2, ih]
                    rw [show (((0 * 16 + 0) * 16 + c.toNat / 16) * 16 + c.toNat % 16)
                      = c.toNat from by omega]
                    simp [Char.ofNat_toNat]
                  · rw [show escapeBody (c :: cs) ++ '"' :: rest =
                      c :: (escapeBody cs ++ '"' :: rest) from by
                        simp [escapeBody, escapeChar, h1, h2, h3, h4, h5, h6, h7, h8]]
                    rw [parseStrBody.eq_def]
                    simp [h1, h2, ih]

/-- A digit character is distinct from any non-digit character. -/
theorem isDigit_ne (c d : Char) (h : c.isDigit = true) (hd : d.isDigit = false) : c ≠ d := by
  intro he
  subst he
  rw [h] at hd
  cases hd

/-- Every serialized JSON value is nonempty and starts with one of the
characters the value parser dispatches on. -/
theorem jsonEncode_head (j : Json) : ∃ c cs, jsonEncode j = c :: cs ∧
    (c = 'n' ∨ c = 't' ∨ c = 'f' ∨ c = '"' ∨ c = '-' ∨ c.isDigit = true ∨
     c = '[' ∨ c = '{') := by
  cases j with
  | null => exact ⟨'n', ['u', 'l', 'l'], by simp [jsonEncode, nullLit], by simp⟩
  | bool b =>
    cases b with
    | true => exact ⟨'t', ['r', 'u', 'e'], by simp [jsonEncode, trueLit], by simp⟩
    | false => exact ⟨'f', ['a', 'l', 's', 'e'], by simp [jsonEncode, falseLit], by simp⟩
  | num n =>
    by_cases hn : n < 0
    · exact ⟨'-', natDigits n.natAbs, by simp [jsonEncode, hn], by simp⟩
    · rcases hd : natDigits n.natAbs with _ | ⟨c, cs⟩
      · exact absurd hd (natDigits_ne_nil _)
      · refine ⟨c, cs, by simp [jsonEncode, hn, hd], ?_⟩
        have : c.isDigit = true :=
          natDigits_all_digits n.natAbs c (by rw [hd]; exact List.mem_cons_self c cs)
        tauto
  | str s => exact ⟨'"', escapeBody s.data ++ ['"'], by simp [jsonEncode], by simp⟩
  | arr es =>
    cases es with
    | nil => exact ⟨'[', [']'], by simp [jsonEncode], by simp⟩
    | cons e es =>
      exact ⟨'[', jsonEncode e ++ encodeArrTail es, by simp [jsonEncode], by simp⟩
  | obj fs =>
    cases fs with
    | nil => exact ⟨'{', ['}'], by simp [jsonEncode], by simp⟩
    | cons f fs =>
      exact ⟨'{', encodeField f ++ encodeObjTail fs, by simp [jsonEncode], by simp⟩

/-- The continuation after an array element starts with a separator or a
closing bracket, never a digit. -/
theorem nonDigitHead_encodeArrTail (es : List Json) (rest : List Char) :
    nonDigitHead (encodeArrTail es ++ rest) = true := by
  cases es <;> simp [encodeArrTail, nonDigitHead]

/-- The continuation after an object field starts with a separator or a
closing brace, never a digit. -/
theorem nonDigitHead_encodeObjTail (fs : List (String × Json)) (rest : List Char) :
    nonDigitHead (encodeObjTail fs ++ rest) = true := by
  cases fs <;> simp [encodeObjTail, nonDigitHead]

/-- Round trip of the canonical serializer and the strict parser, proved for
values, array tails, fields and object tails simultaneously by induction on
the parser fuel.  The fuel hypothesis is satisfiable because every recursive
parser call consumes at least one input character. -/
theorem parse_roundtrip : ∀ fuel : ℕ,
    (∀ (j : Json) (rest : List Char), (jsonEncode j ++ rest).length < fuel →
       nonDigitHead rest = true → parseVal fuel (jsonEncode j ++ rest) = some (j, rest)) ∧
    (∀ (es : List Json) (rest : List Char), (encodeArrTail es ++ rest).length < fuel →
       parseArrTail fuel (encodeArrTail es ++ rest) = some (es, rest)) ∧
    (∀ (f : String × Json) (rest : List Char), (encodeField f ++ rest).length < fuel →
       nonDigitHead rest = true → parseField fuel (encodeField f ++ rest) = some (f, rest)) ∧
    (∀ (fs : List (String × Json)) (rest : List Char),
       (encodeObjTail fs ++ rest).length < fuel →
       parseObjTail fuel (encodeObjTail fs ++ rest) = some (fs, rest)) := by
  intro fuel
  induction fuel with
  | zero =>
    refine ⟨?_, ?_, ?_, ?_⟩ <;> intro _ _ h <;> omega
  | succ fuel ih =>
    obtain ⟨ihv, iha, ihf, iho⟩ := ih
    refine ⟨?_, ?_, ?_, ?_⟩
    · intro j rest hlen hnd
      cases j with
      | null =>
        rw [show jsonEncode Json.null ++ rest = 'n' :: 'u' :: 'l' :: 'l' :: rest from by
          simp [jsonEncode, nullLit]]
        rw [parseVal.eq_def]
        simp [parseNull, expects]
      | bool b =>
        cases b with
        | true =>
          rw [show jsonEncode (Json.bool true) ++ rest = 't' :: 'r' :: 'u' :: 'e' :: rest from by
            simp [jsonEncode, trueLit]]
          rw [parseVal.eq_def]
          simp [parseTrue, expects]
        | false =>
          rw [show jsonEncode (Json.bool false) ++ rest =
            'f' :: 'a' :: 'l' :: 's' :: 'e' :: rest from by simp [jsonEncode, falseLit]]
          rw [parseVal.eq_def]
          simp [parseFalse, expects]
      | num n =>
        rcases hd : natDigits n.natAbs with _ | ⟨c2, cs2⟩
        · exact absurd hd (natDigits_ne_nil _)
        have hdig : c2.isDigit = true :=
          natDigits_all_digits _ c2 (by rw [hd]; exact List.mem_cons_self _ _)
        have hpn : parseNatAux (c2 :: (cs2 ++ rest)) 0 = (n.natAbs, rest) := by
          rw [← List.cons_append, ← hd]
          exact parseNatAux_roundtrip _ _ hnd
        by_cases hn : n < 0
        · rw [show jsonEncode (Json.num n) ++ rest = '-' :: (natDigits n.natAbs ++ rest) from by
            simp [jsonEncode, hn]]
          rw [hd, List.cons_append]
          rw [parseVal.eq_def]
          have habs : ((n.natAbs : ℤ)) = -n := by omega
          simp [parseNegNum, hdig, hpn, habs]
        · rw [show jsonEncode (Json.num n) ++ rest = natDigits n.natAbs ++ rest from by
            simp [jsonEncode, hn]]
          rw [hd, List.cons_append]
          rw [parseVal.eq_def]
          have e1 : c2 ≠ 'n' := isDigit_ne _ _ hdig (by decide)
          have e2 : c2 ≠ 't' := isDigit_ne _ _ hdig (by decide)
          have e3 : c2 ≠ 'f' := isDigit_ne _ _ hdig (by decide)
          have e4 : c2 ≠ '"' := isDigit_ne _ _ hdig (by decide)
          have e5 : c2 ≠ '-' := isDigit_ne _ _ hdig (by decide)
          have e6 : c2 ≠ '[' := isDigit_ne _ _ hdig (by decide)
          have e7 : c2 ≠ '{' := isDigit_ne _ _ hdig (by decide)
          simp [parsePosNum, hdig, hpn, e1, e2, e3, e4, e5, e6, e7]
          omega
      | str s =>
        rw [show jsonEncode (Json.str s) ++ rest =
          '"' :: (escapeBody s.data ++ ('"' :: rest)) from by simp [jsonEncode]]
        rw [parseVal.eq_def]
        simp [parseStrLit, parseStrBody_escape]
      | arr es =>
        cases es with
        | nil =>
          rw [show jsonEncode (Json.arr []) ++ rest = '[' :: ']' :: rest from by
            simp [jsonEncode]]
          rw [parseVal.eq_def]
          simp [parseArrStart.eq_def]
        | cons e es =>
          obtain ⟨c0, cs0, he, hc0⟩ := jsonEncode_head e
          have hne : c0 ≠ ']' := by
            rcases hc0 with h | h | h | h | h | h | h | h
            all_goals first
              | (subst h; decide)
              | (exact isDigit_ne _ _ h (by decide))
          have l1 : (jsonEncode e ++ (encodeArrTail es ++ rest)).length < fuel := by
            simp only [jsonEncode, List.length_cons, List.length_append] at hlen ⊢
            omega
          have hv := ihv e (encodeArrTail es ++ rest) l1 (nonDigitHead_encodeArrTail es rest)
          have l2 : (encodeArrTail es ++ rest).length < fuel := by
            have h1 : 1 ≤ (jsonEncode e).length := by rw [he]; simp
            simp only [jsonEncode, List.length_cons, List.length_append] at hlen ⊢
            omega
          have ha := iha es rest l2
          rw [show jsonEncode (Json.arr (e :: es)) ++ rest =
            '[' :: (jsonEncode e ++ (encodeArrTail es ++ rest)) from by simp [jsonEncode]]
          rw [he, List.cons_append] at hv ⊢
          rw [parseVal.eq_def]
          simp [parseArrStart.eq_def, hne, hv, ha]
      | obj fs =>
        cases fs with
        | nil =>
          rw [show jsonEncode (Json.obj []) ++ rest = '{' :: '}' :: rest from by
            simp [jsonEncode]]
          rw [parseVal.eq_def]
          simp [parseObjStart.eq_def]
        | cons f fs =>
          obtain ⟨k, v⟩ := f
          have l1 : (encodeField (k, v) ++ (encodeObjTail fs ++ rest)).length < fuel := by
            simp only [jsonEncode, List.length_cons, List.length_append] at hlen ⊢
            omega
          have hf := ihf (k, v) (encodeObjTail fs ++ rest) l1 (nonDigitHead_encodeObjTail fs rest)
          have l2 : (encodeObjTail fs ++ rest).length < fuel := by
            simp only [jsonEncode, encodeField, List.length_cons, List.length_append] at hlen ⊢
            omega
          have ho := iho fs rest l2
          rw [show encodeField (k, v) ++ (encodeObjTail fs ++ rest) =
            '"' :: (escapeBody k.data ++
              ('"' :: (':' :: (jsonEncode v ++ (encodeObjTail fs ++ rest))))) from by
              simp [encodeField]] at hf
          rw [show jsonEncode (Json.obj ((k, v) :: fs)) ++ rest =
            '{' :: ('"' :: (escapeBody k.data ++
              ('"' :: (':' :: (jsonEncode v ++ (encodeObjTail fs ++ rest)))))) from by
              simp [jsonEncode, encodeField]]
          rw [parseVal.eq_def]
          simp [parseObjStart.eq_def, hf, ho]
    · intro es rest hlen
      cases es with
      | nil =>
        rw [show encodeArrTail ([] : List Json) ++ rest = ']' :: rest from by
          simp [encodeArrTail]]
        rw [parseArrTail.eq_def]
        simp
      | cons e es =>
        have l1 : (jsonEncode e ++ (encodeArrTail es ++ rest)).length < fuel := by
          simp only [encodeArrTail, List.length_cons, List.length_append] at hlen ⊢
          omega
        have hv := ihv e (encodeArrTail es ++ rest) l1 (nonDigitHead_encodeArrTail es rest)
        have l2 : (encodeArrTail es ++ rest).length < fuel := by
          obtain ⟨c0, cs0, he, _⟩ := jsonEncode_head e
          have h1 : 1 ≤ (jsonEncode e).length := by rw [he]; simp
          simp only [encodeArrTail, List.length_cons, List.length_append] at hlen ⊢
          omega
        have ha := iha es rest l2
        rw [show encodeArrTail (e :: es) ++ rest =
          ',' :: (jsonEncode e ++ (encodeArrTail es ++ rest)) from by simp [encodeArrTail]]
        rw [parseArrTail.eq_def]
        simp [hv, ha]
    · intro f rest hlen hnd
      obtain ⟨k, v⟩ := f
      have l1 : (jsonEncode v ++ rest).length < fuel := by
        simp only [encodeField, List.length_cons, List.length_append] at hlen ⊢
        omega
      have hv := ihv v rest l1 hnd
      rw [show encodeField (k, v) ++ rest =
        '"' :: (escapeBody k.data ++ ('"' :: (':' :: (jsonEncode v ++ rest)))) from by
          simp [encodeField]]
      rw [parseField.eq_def]
      simp [parseStrBody_escape, hv]
    · intro fs rest hlen
      cases fs with
      | nil =>
        rw [show encodeObjTail ([] : List (String × Json)) ++ rest = '}' :: rest from by
          simp [encodeObjTail]]
        rw [parseObjTail.eq_def]
        simp
      | cons f fs =>
        have l1 : (encodeField f ++ (encodeObjTail fs ++ rest)).length < fuel := by
          simp only [encodeObjTail, List.length_cons, List.length_append] at hlen ⊢
          omega
        have hf := ihf f (encodeObjTail fs ++ rest) l1 (nonDigitHead_encodeObjTail fs rest)
        have l2 : (encodeObjTail fs ++ rest).length < fuel := by
          obtain ⟨k, v⟩ := f
          simp only [encodeObjTail, encodeField, List.length_cons, List.length_append]
            at hlen ⊢
          omega
        have ho := iho fs rest l2
        rw [show encodeObjTail (f :: fs) ++ rest =
          ',' :: (encodeField f ++ (encodeObjTail fs ++ rest)) from by simp [encodeObjTail]]
        rw [parseObjTail.eq_def]
        simp [hf, ho]

/-- Parsing a canonically serialized JSON value recovers it exactly. -/
theorem jsonParse_jsonEncode (j : Json) : jsonParse (jsonEncode j) = some j := by
  have h := (parse_roundtrip ((jsonEncode j).length + 1)).1 j [] (by simp)
    (by simp [nonDigitHead])
  rw [List.append_nil] at h
  simp [jsonParse, h]

/-- Digit characters for values below 16 are never a newline. -/
theorem digitChar_ne_newline (v : ℕ) (h : v < 16) : Nat.digitChar v ≠ '\n' := by
  interval_cases v <;> decide

/-- The escape encoder never emits a raw newline. -/
theorem newline_not_mem_escapeChar (c : Char) : '\n' ∉ escapeChar c := by
  unfold escapeChar
  split_ifs with h1 h2 h3 h4 h5 h6 h7 h8
  · decide
  · decide
  · decide
  · decide
  · decide
  · decide
  · decide
  · have d1 : Nat.digitChar (c.toNat / 16) ≠ '\n' := digitChar_ne_newline _ (by omega)
    have d2 : Nat.digitChar (c.toNat % 16) ≠ '\n' := digitChar_ne_newline _ (by omega)
    simp only [List.mem_cons, List.not_mem_nil, or_false]
    push_neg
    exact ⟨by decide, by decide, by decide, by decide,
      fun he => d1 he.symm, fun he => d2 he.symm⟩
  · simp only [List.mem_singleton]
    exact fun he => h5 he.symm

/-- Escaped string bodies contain no raw newline. -/
theorem newline_not_mem_escapeBody : ∀ cs : List Char, '\n' ∉ escapeBody cs := by
  intro cs
  induction cs with
  | nil => simp [escapeBody]
  | cons c cs ih =>
    simp only [escapeBody, List.mem_append]
    rintro (h | h)
    · exact newline_not_mem_escapeChar c h
    · exact ih h

/-- Serialized numbers contain no newline. -/
theorem newline_not_mem_natDigits (n : ℕ) : '\n' ∉ natDigits n := by
  intro h
  exact absurd (natDigits_all_digits n _ h) (by decide)

/-- No serialized JSON value, array tail, field or object tail contains a raw
newline, proved by induction on a length bound. -/
theorem newline_not_mem_encode_bounded : ∀ N : ℕ,
    (∀ j : Json, (jsonEncode j).length ≤ N → '\n' ∉ jsonEncode j) ∧
    (∀ es : List Json, (encodeArrTail es).length ≤ N → '\n' ∉ encodeArrTail es) ∧
    (∀ f : String × Json, (encodeField f).length ≤ N → '\n' ∉ encodeField f) ∧
    (∀ fs : List (String × Json), (encodeObjTail fs).length ≤ N → '\n' ∉ encodeObjTail fs) := by
  intro N
  induction N with
  | zero =>
    refine ⟨?_, ?_, ?_, ?_⟩
    · intro j hlen
      obtain ⟨c, cs, he, _⟩ := jsonEncode_head j
      rw [he] at hlen
      simp at hlen
    · intro es hlen
      cases es <;> simp [encodeArrTail] at hlen
    · intro f hlen
      obtain ⟨k, v⟩ := f
      simp [encodeField] at hlen
    · intro fs hlen
      cases fs <;> simp [encodeObjTail] at hlen
  | succ N ih =>
    obtain ⟨ihv, iha, ihf, iho⟩ := ih
    refine ⟨?_, ?_, ?_, ?_⟩
    · intro j hlen
      cases j with
      | null => decide
      | bool b => cases b <;> decide
      | num n =>
        by_cases hn : n < 0
        · rw [show jsonEncode (Json.num n) = '-' :: natDigits n.natAbs from by
            simp [jsonEncode, hn]]
          simp only [List.mem_cons]
          rintro (h | h)
          · cases h
          · exact newline_not_mem_natDigits _ h
        · rw [show jsonEncode (Json.num n) = natDigits n.natAbs from by simp [jsonEncode, hn]]
          exact newline_not_mem_natDigits _
      | str s =>
        rw [show jsonEncode (Json.str s) = '"' :: (escapeBody s.data ++ ['"']) from by
          simp [jsonEncode]]
        simp only [List.mem_cons, List.mem_append, List.mem_singleton]
        rintro (h | h | h | h)
        · exact absurd h (by decide)
        · exact newline_not_mem_escapeBody _ h
        · exact absurd h (by decide)
        · exact absurd h (List.not_mem_nil _)
      | arr es =>
        cases es with
        | nil => decide
        | cons e es =>
          rw [show jsonEncode (Json.arr (e :: es)) = '[' :: (jsonEncode e ++ encodeArrTail es)
            from by simp [jsonEncode]] at hlen ⊢
          simp only [List.mem_cons, List.mem_append]
          simp only [List.length_cons, List.length_append] at hlen
          rintro (h | h | h)
          · cases h
          · exact ihv e (by omega) h
          · exact iha es (by omega) h
      | obj fs =>
        cases fs with
        | nil => decide
        | cons f fs =>
          rw [show jsonEncode (Json.obj (f :: fs)) = '{' :: (encodeField f ++ encodeObjTail fs)
            from by simp [jsonEncode]] at hlen ⊢
          simp only [List.mem_cons, List.mem_append]
          simp only [List.length_cons, List.length_append] at hlen
          rintro (h | h | h)
          · cases h
          · exact ihf f (by omega) h
          · exact iho fs (by omega) h
    · intro es hlen
      cases es with
      | nil => decide
      | cons e es =>
        rw [show encodeArrTail (e :: es) = ',' :: (jsonEncode e ++ encodeArrTail es) from by
          simp [encodeArrTail]] at hlen ⊢
        simp only [List.mem_cons, List.mem_append]
        simp only [List.length_cons, List.length_append] at hlen
        rintro (h | h | h)
        · cases h
        · exact ihv e (by omega) h
        · exact iha es (by omega) h
    · intro f hlen
      obtain ⟨k, v⟩ := f
      rw [show encodeField (k, v) = '"' :: (escapeBody k.data ++ ('"' :: ':' :: jsonEncode v))
        from by simp [encodeField]] at hlen ⊢
      simp only [List.mem_cons, List.mem_append]
      simp only [List.length_cons, List.length_append] at hlen
      rintro (h | h | h | h | h)
      · cases h
      · exact newline_not_mem_escapeBody _ h
      · cases h
      · cases h
      · exact ihv v (by omega) h
    · intro fs hlen
      cases fs with
      | nil => decide
      | cons f fs =>
        rw [show encodeObjTail (f :: fs) = ',' :: (encodeField f ++ encodeObjTail fs) from by
          simp [encodeObjTail]] at hlen ⊢
        simp only [List.mem_cons, List.mem_append]
        simp only [List.length_cons, List.length_append] at hlen
        rintro (h | h | h)
        · cases h
        · exact ihf f (by omega) h
        · exact iho fs (by omega) h

/-- A serialized JSON value contains no raw newline, so a JSONL record
occupies exactly one line. -/
theorem newline_not_mem_jsonEncode (j : Json) : '\n' ∉ jsonEncode j :=
  (newline_not_mem_encode_bounded (jsonEncode j).length).1 j le_rfl

/-- Splits off the first line of a character stream: the characters before
the first newline, and the remainder after it. -/
def takeLine : List Char → List Char × List Char
  | [] => ([], [])
  | c :: rest =>
    if c = '\n' then ([], rest)
    else ((c :: (takeLine rest).1), (takeLine rest).2)

/-- `takeLine` always consumes at least the first character. -/
theorem takeLine_snd_lt : ∀ (c : Char) (rest : List Char),
    (takeLine (c :: rest)).2.length < (c :: rest).length := by
  intro c rest
  induction rest generalizing c with
  | nil => by_cases h : c = '\n' <;> simp [takeLine, h]
  | cons c2 rest ih =>
    by_cases h : c = '\n'
    · simp [takeLine, h]
    · simp only [takeLine, h, if_false, List.length_cons]
      exact lt_trans (ih c2) (by simp)

/-- All newline-terminated lines of a character stream, in order. -/
def linesOf : List Char → List (List Char)
  | [] => []
  | c :: rest => (takeLine (c :: rest)).1 :: linesOf (takeLine (c :: rest)).2
termination_by s => s.length
decreasing_by exact takeLine_snd_lt _ _

/-- `takeLine` recovers a newline-free prefix up to its terminator. -/
theorem takeLine_append (a b : List Char) (ha : '\n' ∉ a) :
    takeLine (a ++ '\n' :: b) = (a, b) := by
  induction a with
  | nil => simp [takeLine]
  | cons c a ih =>
    have hc : ¬ c = '\n' := fun he => ha (he ▸ List.mem_cons_self c a)
    have ha' : '\n' ∉ a := fun hm => ha (List.mem_cons_of_mem c hm)
    simp [takeLine, hc, ih ha']

/-- Splitting a JSONL stream (newline-free records, each terminated by a
newline) into lines recovers exactly the records. -/
theorem linesOf_terminated : ∀ rs : List (List Char), (∀ l ∈ rs, '\n' ∉ l) →
    linesOf ((rs.map (fun l => l ++ ['\n'])).flatten) = rs := by
  intro rs
  induction rs with
  | nil =>
    intro _
    rw [show ((List.map (fun l => l ++ ['\n']) ([] : List (List Char))).flatten)
      = ([] : List Char) from rfl]
    rw [linesOf.eq_def]
  | cons l rs ih =>
    intro hnl
    have hl : '\n' ∉ l := hnl l (List.mem_cons_self l rs)
    have hrs : ∀ x ∈ rs, '\n' ∉ x := fun x hx => hnl x (List.mem_cons_of_mem l hx)
    have hflat : ((l :: rs).map (fun x => x ++ ['\n'])).flatten =
        l ++ '\n' :: (rs.map (fun x => x ++ ['\n'])).flatten := by
      simp [List.flatten]
    rw [hflat]
    cases l with
    | nil =>
      have hta : takeLine ('\n' :: (rs.map (fun x => x ++ ['\n'])).flatten) =
          ([], (rs.map (fun x => x ++ ['\n'])).flatten) := by simp [takeLine]
      simp only [List.nil_append]
      rw [linesOf.eq_def]
      simp [hta, ih hrs]
    | cons c l =>
      have hta := takeLine_append (c :: l) ((rs.map (fun x => x ++ ['\n'])).flatten) hl
      rw [List.cons_append] at hta
      rw [List.cons_append, linesOf.eq_def]
      simp [hta, ih hrs]

/-- One JSONL audit file: each record serialized by `JSON.stringify` on its
own newline-terminated line (part_000 line 351: jsonLine = JSON.stringify(entry) + a newline). -/
def jsonlEncode (records : List Json) : List Char :=
  (records.map (fun r => jsonEncode r ++ ['\n'])).flatten

/-- The audit-log directory as a map from file name to contents. -/
abbrev AuditFiles := String → List Char

/-- UTC day-file name `audit-YYYY-MM-DD.log`: the date is
`new Date().toISOString().split('T')[0]` (part_000 lines 378-381, quoting
audit-logger.ts getLogFilename). -/
def getLogFilename (isoTimestamp : String) : String :=
  "audit-" ++ String.mk (isoTimestamp.data.takeWhile (fun c => c != 'T')) ++ ".log"

/-- Shallow embedding of `AuditLogger.log` (src/unnamed/part_000 lines
343-361, quoting audit-logger.ts lines 155-179): under the log-write lock it
appends `JSON.stringify(entry) + '\n'` to the current UTC day's file; no
other file is touched. -/
def auditLog (isoNow : String) (entry : Json) (files : AuditFiles) : AuditFiles :=
  Function.update files (getLogFilename isoNow)
    (files (getLogFilename isoNow) ++ (jsonEncode entry ++ ['\n']))

/-- Lines of a JSONL file are the serialized records. -/
theorem linesOf_jsonlEncode (rs : List Json) :
    linesOf (jsonlEncode rs) = rs.map jsonEncode := by
  have h := linesOf_terminated (rs.map jsonEncode)
    (by intro l hl
        obtain ⟨j, _, rfl⟩ := List.mem_map.mp hl
        exact newline_not_mem_jsonEncode j)
  rw [← h]
  simp [jsonlEncode, List.map_map]
  rfl

/-- C7: audit round trip.  If the current UTC day file holds a well-formed
JSONL log of `records`, then `log(entry)` appends exactly one line — the JSON
encoding of `entry` terminated by a newline — to that day's file and leaves
every other file unchanged; re-reading the day file yields the previous lines
plus the new one, whose last line JSON-decodes to exactly `entry` (field
order preserved, so byte-exact modulo map key ordering). -/
theorem auditLog_roundtrip (isoNow : String) (entry : Json) (files : AuditFiles)
    (records : List Json)
    (hwf : files (getLogFilename isoNow) = jsonlEncode records) :
    auditLog isoNow entry files (getLogFilename isoNow) =
      jsonlEncode (records ++ [entry]) ∧
    linesOf (auditLog isoNow entry files (getLogFilename isoNow)) =
      records.map jsonEncode ++ [jsonEncode entry] ∧
    (linesOf (auditLog isoNow entry files (getLogFilename isoNow))).getLast? =
      some (jsonEncode entry) ∧
    jsonParse (jsonEncode entry) = some entry ∧
    (∀ p, p ≠ getLogFilename isoNow → auditLog isoNow entry files p = files p) := by
  have hfile : auditLog isoNow entry files (getLogFilename isoNow) =
      jsonlEncode (records ++ [entry]) := by
    rw [auditLog, Function.update_same, hwf]
    simp [jsonlEncode]
  refine ⟨hfile, ?_, ?_, jsonParse_jsonEncode entry, ?_⟩
  · rw [hfile, linesOf_jsonlEncode]
    simp
  · rw [hfile, linesOf_jsonlEncode]
    simp
  · intro p hp
    rw [auditLog, Function.update_noteq hp]

/-- Witness for C7: a fresh day file receiving one structured audit event. -/
theorem auditLog_roundtrip_witness :
    ((fun _ => []) : AuditFiles) (getLogFilename "2025-11-18T12:00:00.000Z") =
      jsonlEncode [] ∧
    (auditLog "2025-11-18T12:00:00.000Z"
        (Json.obj [("eventType", Json.str "tool-call"), ("latencyMs", Json.num 12)])
        (fun _ => []) (getLogFilename "2025-11-18T12:00:00.000Z") =
      jsonlEncode [Json.obj [("eventType", Json.str "tool-call"), ("latencyMs", Json.num 12)]] ∧
     jsonParse (jsonEncode
        (Json.obj [("eventType", Json.str "tool-call"), ("latencyMs", Json.num 12)])) =
      some (Json.obj [("eventType", Json.str "tool-call"), ("latencyMs", Json.num 12)])) :=
  ⟨rfl,
   (auditLog_roundtrip "2025-11-18T12:00:00.000Z"
      (Json.obj [("eventType", Json.str "tool-call"), ("latencyMs", Json.num 12)])
      (fun _ => []) [] rfl).1,
   (auditLog_roundtrip "2025-11-18T12:00:00.000Z"
      (Json.obj [("eventType", Json.str "tool-call"), ("latencyMs", Json.num 12)])
      (fun _ => []) [] rfl).2.2.2.1⟩

/-- Outcome of one `fs.readFile` call: the file contents on success, or the
error code (`ENOENT`, `EACCES`, ...) carried by the rejected promise. -/
inductive ReadOutcome where
  | success (content : List Char)
  | failure (code : String)
deriving DecidableEq

/-- The file system visible to a reader, as a map from path to read outcome. -/
abbrev FileSystem := String → ReadOutcome

/-- An error escaping `readConfig`: a rethrown I/O error carrying its `code`,
or the `SyntaxError` thrown by `JSON.parse` (which carries no `code`, so the
ENOENT check never matches it). -/
inductive JsError where
  | ioError (code : String)
  | syntaxError
deriving DecidableEq

/-- JSON whitespace accepted by `JSON.parse` (ECMA-262 JSONWhiteSpace):
space, tab, line feed, carriage return — nothing else. -/
def isJsonWs (c : Char) : Bool :=
  c = ' ' || c = '\t' || c = '\n' || c = '\r'

/-- Skips leading JSON whitespace. -/
def skipJsonWs : List Char → List Char
  | [] => []
  | c :: rest => if isJsonWs c then skipJsonWs rest else c :: rest

/-- A JavaScript value as produced by `JSON.parse` on arbitrary text.  A JSON
number is kept as the exact decimal `mantissa × 10^exponent` the text denotes
(declared modelling boundary: JS rounds it to binary64; no claim depends on
the rounding).  JSON `null` parses to the same JS value `null` that
`readConfig` returns for a missing file, so it is one constructor here, not
an extra `Option` layer. -/
inductive JsValue where
  | null
  | bool (b : Bool)
  | num (mantissa : ℤ) (exponent : ℤ)
  | str (s : String)
  | arr (elems : List JsValue)
  | obj (fields : List (String × JsValue))

/-- Value of one hexadecimal digit, case-insensitive as in JSON `\uXXXX`
escapes. -/
def jsonHexVal (c : Char) : Option ℕ :=
  if '0' ≤ c ∧ c ≤ '9' then some (c.toNat - 48)
  else if 'a' ≤ c ∧ c ≤ 'f' then some (c.toNat - 87)
  else if 'A' ≤ c ∧ c ≤ 'F' then some (c.toNat - 55)
  else none

/-- First pass of JSON string decoding: the body up to the closing quote as
UTF-16 code-unit values.  A raw control character below 0x20 is a syntax
error; the two-character escapes and case-insensitive `\uXXXX` are decoded;
a `\uXXXX` surrogate value stays a bare code unit, as in a JS string. -/
def parseJsUnits : List Char → Option (List ℕ × List Char)
  | [] => none
  | c :: rest =>
    if c = '"' then some ([], rest)
    else if c = '\\' then
      match rest with
      | [] => none
      | e :: rest2 =>
        if e = 'u' then
          match rest2 with
          | h1 :: h2 :: h3 :: h4 :: rest3 =>
            match jsonHexVal h1, jsonHexVal h2, jsonHexVal h3, jsonHexVal h4 with
            | some v1, some v2, some v3, some v4 =>
              match parseJsUnits rest3 with
              | some (us, r) => some ((((v1 * 16 + v2) * 16 + v3) * 16 + v4) :: us, r)
              | none => none
            | _, _, _, _ => none
          | _ => none
        else
          match unescapeChar e with
          | some c2 =>
            match parseJsUnits rest2 with
            | some (us, r) => some (c2.toNat :: us, r)
            | none => none
          | none => none
    else if c.toNat < 32 then none
    else
      match parseJsUnits rest with
      | some (us, r) => some (c.toNat :: us, r)
      | none => none

/-- Second pass: the decoded UTF-16 code units as Unicode scalar characters.
A high-surrogate unit followed by a low-surrogate unit combines into one
supplementary code point, exactly the scalar the JS string denotes; a lone
surrogate unit becomes U+FFFD (a JS string can hold a lone UTF-16 code unit,
a Unicode scalar string cannot; no claim depends on that value). -/
def unitsToChars : List ℕ → List Char
  | [] => []
  | u :: rest =>
    if 0xD800 ≤ u ∧ u ≤ 0xDBFF then
      match rest with
      | u2 :: rest2 =>
        if 0xDC00 ≤ u2 ∧ u2 ≤ 0xDFFF then
          Char.ofNat (0x10000 + (u - 0xD800) * 0x400 + (u2 - 0xDC00)) :: unitsToChars rest2
        else Char.ofNat 0xFFFD :: unitsToChars (u2 :: rest2)
      | [] => [Char.ofNat 0xFFFD]
    else if 0xDC00 ≤ u ∧ u ≤ 0xDFFF then Char.ofNat 0xFFFD :: unitsToChars rest
    else Char.ofNat u :: unitsToChars rest

/-- Parses a JSON string body after the opening quote, per RFC 8259 as
`JSON.parse` enforces it: a raw control character below 0x20 is a syntax
error, the two-character escapes and case-insensitive `\uXXXX` are decoded
(first pass), and the resulting UTF-16 code units become Unicode scalars
(second pass). -/
def parseJsStrBody (s : List Char) : Option (List Char × List Char) :=
  match parseJsUnits s with
  | some (us, r) => some (unitsToChars us, r)
  | none => none

/-- Splits the longest run of leading decimal digits from the input. -/
def spanDigits : List Char → List Char × List Char
  | [] => ([], [])
  | c :: rest =>
    if c.isDigit then (c :: (spanDigits rest).1, (spanDigits rest).2)
    else ([], c :: rest)

/-- Numeric value of a list of decimal digits. -/
def digitsVal (ds : List Char) : ℕ :=
  ds.foldl (fun acc c => acc * 10 + (c.toNat - 48)) 0

/-- Fraction part of the JSON number grammar: a dot requires at least one
digit and scales the integer part into the mantissa; absent otherwise. -/
def parseJsFrac (m : ℕ) (s : List Char) : Option ((ℕ × ℤ) × List Char) :=
  match s with
  | [] => some ((m, 0), [])
  | c :: r =>
    if c = '.' then
      match spanDigits r with
      | ([], _) => none
      | (ds, r2) => some ((m * 10 ^ ds.length + digitsVal ds, -(ds.length : ℤ)), r2)
    else some ((m, 0), c :: r)

/-- Exponent part of the JSON number grammar: `e`/`E`, an optional sign,
then at least one digit; absent otherwise. -/
def parseJsExp (s : List Char) : Option (ℤ × List Char) :=
  match s with
  | [] => some (0, [])
  | c :: r =>
    if c = 'e' ∨ c = 'E' then
      match r with
      | [] => none
      | c2 :: r2 =>
        if c2 = '+' then
          match spanDigits r2 with
          | ([], _) => none
          | (ds, r3) => some ((digitsVal ds : ℤ), r3)
        else if c2 = '-' then
          match spanDigits r2 with
          | ([], _) => none
          | (ds, r3) => some (-(digitsVal ds : ℤ), r3)
        else
          match spanDigits (c2 :: r2) with
          | ([], _) => none
          | (ds, r3) => some ((digitsVal ds : ℤ), r3)
    else some (0, c :: r)

/-- A JSON number per the grammar `JSON.parse` enforces:
`-? (0 | [1-9][0-9]*) (. [0-9]+)? ([eE][+-]?[0-9]+)?`.  After a leading `0`
no further integer digits are consumed, so a text like `007` leaves `07`
behind and the surrounding grammar fails exactly where `JSON.parse` throws.
Returns the exact decimal `(mantissa, exponent)`. -/
def parseJsNumber (input : List Char) : Option ((ℤ × ℤ) × List Char) :=
  match input with
  | [] => none
  | c0 :: r0 =>
    match (if c0 = '-' then (true, r0) else (false, c0 :: r0)) with
    | (neg, s1) =>
      match s1 with
      | [] => none
      | c :: rest =>
        if c.isDigit then
          match (if c = '0' then ((0 : ℕ), rest)
                 else (digitsVal (spanDigits (c :: rest)).1, (spanDigits (c :: rest)).2)) with
          | (intVal, s2) =>
            match parseJsFrac intVal s2 with
            | none => none
            | some ((man, e1), s3) =>
              match parseJsExp s3 with
              | none => none
              | some (e2, s4) =>
                some (((if neg then -(man : ℤ) else (man : ℤ)), e1 + e2), s4)
        else none

/-- Parses the tail of the `null` keyword into a JS value. -/
def parseJsNull (rest : List Char) : Option (JsValue × List Char) :=
  match expects ['u', 'l', 'l'] rest with
  | some r => some (JsValue.null, r)
  | none => none

/-- Parses the tail of the `true` keyword into a JS value. -/
def parseJsTrue (rest : List Char) : Option (JsValue × List Char) :=
  match expects ['r', 'u', 'e'] rest with
  | some r => some (JsValue.bool true, r)
  | none => none

/-- Parses the tail of the `false` keyword into a JS value. -/
def parseJsFalse (rest : List Char) : Option (JsValue × List Char) :=
  match expects ['a', 'l', 's', 'e'] rest with
  | some r => some (JsValue.bool false, r)
  | none => none

/-- Parses a string literal after its opening quote into a JS value. -/
def parseJsStrLit (rest : List Char) : Option (JsValue × List Char) :=
  match parseJsStrBody rest with
  | some (s, r) => some (JsValue.str (String.mk s), r)
  | none => none

/-- Parses a number starting with `c` into a JS value. -/
def parseJsNumLit (c : Char) (rest : List Char) : Option (JsValue × List Char) :=
  match parseJsNumber (c :: rest) with
  | some ((m, e), r) => some (JsValue.num m e, r)
  | none => none

mutual

/-- Model of `JSON.parse` value parsing on arbitrary text: leading JSON
whitespace is skipped, then the value is dispatched on its first character.
`fuel` bounds the recursion; the top-level entry supplies input length + 1,
which suffices because at least one character is consumed between successive
fuel decrements. -/
def parseJsVal : ℕ → List Char → Option (JsValue × List Char)
  | 0, _ => none
  | fuel + 1, input =>
    match skipJsonWs input with
    | [] => none
    | c :: rest =>
      if c = 'n' then parseJsNull rest
      else if c = 't' then parseJsTrue rest
      else if c = 'f' then parseJsFalse rest
      else if c = '"' then parseJsStrLit rest
      else if c = '[' then parseJsArr fuel rest
      else if c = '{' then parseJsObj fuel rest
      else if c = '-' ∨ c.isDigit then parseJsNumLit c rest
      else none
termination_by fuel _ => (fuel, 0)

/-- Array body after the opening bracket: whitespace, then `]` or the
elements. -/
def parseJsArr (fuel : ℕ) (s : List Char) : Option (JsValue × List Char) :=
  match skipJsonWs s with
  | [] => none
  | c :: r =>
    if c = ']' then some (JsValue.arr [], r)
    else
      match parseJsVal fuel (c :: r) with
      | some (e, r2) =>
        match parseJsArrTail fuel r2 with
        | some (es, r3) => some (JsValue.arr (e :: es), r3)
        | none => none
      | none => none
termination_by (fuel, 3)

/-- `,value...]` continuations of an array, with whitespace. -/
def parseJsArrTail : ℕ → List Char → Option (List JsValue × List Char)
  | 0, _ => none
  | fuel + 1, s =>
    match skipJsonWs s with
    | [] => none
    | c :: r =>
      if c = ']' then some ([], r)
      else if c = ',' then
        match parseJsVal fuel r with
        | some (e, r1) =>
          match parseJsArrTail fuel r1 with
          | some (es, r2) => some (e :: es, r2)
          | none => none
        | none => none
      else none
termination_by fuel _ => (fuel, 1)

/-- Object body after the opening brace: whitespace, then `}` or the
members. -/
def parseJsObj (fuel : ℕ) (s : List Char) : Option (JsValue × List Char) :=
  match skipJsonWs s with
  | [] => none
  | c :: r =>
    if c = '}' then some (JsValue.obj [], r)
    else
      match parseJsField fuel (c :: r) with
      | some (f, r2) =>
        match parseJsObjTail fuel r2 with
        | some (fs, r3) => some (JsValue.obj (f :: fs), r3)
        | none => none
      | none => none
termination_by (fuel, 3)

/-- One `"key" : value` member, with whitespace around the key and colon. -/
def parseJsField : ℕ → List Char → Option ((String × JsValue) × List Char)
  | 0, _ => none
  | fuel + 1, s =>
    match skipJsonWs s with
    | [] => none
    | c :: rest =>
      if c = '"' then
        match parseJsStrBody rest with
        | some (k, r1) =>
          match skipJsonWs r1 with
          | [] => none
          | c2 :: r2 =>
            if c2 = ':' then
              match parseJsVal fuel r2 with
              | some (v, r3) => some ((String.mk k, v), r3)
              | none => none
            else none
        | none => none
      else none
termination_by fuel _ => (fuel, 1)

/-- `,member...}` continuations of an object, with whitespace. -/
def parseJsObjTail : ℕ → List Char → Option (List (String × JsValue) × List Char)
  | 0, _ => none
  | fuel + 1, s =>
    match skipJsonWs s with
    | [] => none
    | c :: r =>
      if c = '}' then some ([], r)
      else if c = ',' then
        match parseJsField fuel r with
        | some (f, r1) =>
          match parseJsObjTail fuel r1 with
          | some (fs, r2) => some (f :: fs, r2)
          | none => none
        | none => none
      else none
termination_by fuel _ => (fuel, 2)

end

/-- `JSON.parse` on a whole text: one JSON value surrounded by optional
whitespace, with the input fully consumed; `none` models the thrown
SyntaxError. -/
def jsonParseJS (s : List Char) : Option JsValue :=
  match parseJsVal (s.length + 1) s with
  | some (j, r) => if skipJsonWs r = [] then some j else none
  | none => none

/-- Shallow embedding of `ConfigManager.readConfig` (src/unnamed/part_003
lines 37-48): read the file and `JSON.parse` it; the catch block returns
`null` when the caught error's code is ENOENT and rethrows anything else —
including the `JSON.parse` SyntaxError, which carries no code.  The returned
JS value is `JSON.parse(content)` on success and `null` on ENOENT; these are
the same JS value `null` when the file's text parses to JSON null, which the
single `JsValue.null` constructor reflects.  The method issues no writes, so
the file-system component of the result is the unchanged input. -/
def readConfig (fs : FileSystem) (configPath : String) :
    Except JsError JsValue × FileSystem :=
  ((match fs configPath with
    | .failure code => if code = "ENOENT" then .ok JsValue.null else .error (.ioError code)
    | .success content =>
      match jsonParseJS content with
      | some j => .ok j
      | none => .error .syntaxError), fs)

/-- Example file system holding one config file whose entire text is the
JSON document `null`, everything else absent. -/
def nullConfigFs : FileSystem := fun p =>
  if p = "/home/user/null-config.json" then ReadOutcome.success ("null".data)
  else ReadOutcome.failure "ENOENT"

/-- C9 counterexample: a file whose contents are the JSON text `null` exists
and reads successfully, yet `readConfig` returns the JS value `null` —
`JSON.parse("null")` is the very `null` the claim reserves for ENOENT — so
"returns null only if the read fails with ENOENT" is false as stated. -/
theorem readConfig_null_on_successful_read :
    nullConfigFs "/home/user/null-config.json" = ReadOutcome.success ("null".data) ∧
    (readConfig nullConfigFs "/home/user/null-config.json").1 = Except.ok JsValue.null := by
  constructor
  · simp [nullConfigFs]
  · simp [readConfig, nullConfigFs, jsonParseJS, parseJsVal, skipJsonWs, isJsonWs,
      parseJsNull, expects, String.data]

/-- C9 (amended): `readConfig` returns the JS value `null` iff the read fails
with ENOENT or the file exists and its contents parse to JSON `null`
(`JSON.parse("null")` is that same JS value `null`); a successful call
returns the `JSON.parse` of the contents; malformed JSON propagates as the
SyntaxError and any other read failure propagates with its code, rather than
returning null; and the file system is left unchanged (the method performs no
writes). -/
theorem readConfig_null_characterization (fs : FileSystem) (p : String) :
    ((readConfig fs p).1 = .ok JsValue.null ↔
      (fs p = .failure "ENOENT" ∨
       ∃ content, fs p = .success content ∧ jsonParseJS content = some JsValue.null)) ∧
    (∀ content j, fs p = .success content → jsonParseJS content = some j →
       (readConfig fs p).1 = .ok j) ∧
    (∀ content, fs p = .success content → jsonParseJS content = none →
       (readConfig fs p).1 = .error .syntaxError) ∧
    (∀ code, fs p = .failure code → code ≠ "ENOENT" →
       (readConfig fs p).1 = .error (.ioError code)) ∧
    (readConfig fs p).2 = fs := by
  refine ⟨?_, ?_, ?_, ?_, rfl⟩
  · rcases h : fs p with content | code
    · rcases hj : jsonParseJS content with _ | j <;> simp [readConfig, h, hj]
    · by_cases hc : code = "ENOENT" <;> simp [readConfig, h, hc]
  · intro content j h hj
    simp [readConfig, h, hj]
  · intro content h hj
    simp [readConfig, h, hj]
  · intro code h hc
    simp [readConfig, h, hc]

/-- Witness for the amended C9 on the example file system: the iff holds at
an absent path, and at the file whose text is `null`. -/
theorem readConfig_null_characterization_witness :
    nullConfigFs "/home/user/absent.json" = ReadOutcome.failure "ENOENT" ∧
    ((readConfig nullConfigFs "/home/user/absent.json").1 = Except.ok JsValue.null ↔
      (nullConfigFs "/home/user/absent.json" = ReadOutcome.failure "ENOENT" ∨
       ∃ content, nullConfigFs "/home/user/absent.json" = ReadOutcome.success content ∧
         jsonParseJS content = some JsValue.null)) ∧
    (readConfig nullConfigFs "/home/user/absent.json").2 = nullConfigFs :=
  ⟨by simp [nullConfigFs],
   (readConfig_null_characterization nullConfigFs "/home/user/absent.json").1,
   (readConfig_null_characterization nullConfigFs "/home/user/absent.json").2.2.2.2⟩

/-- Module format detected from package.json. -/
inductive ModuleFormat where
  | esm
  | commonjs
deriving DecidableEq

/-- Detection result: the format and a human-readable source tag. -/
structure ModuleFormatResult where
  format : ModuleFormat
  source : String
deriving DecidableEq

/-- Errors thrown by `detectModuleFormat`: a rethrown non-ENOENT I/O error,
the wrapped invalid-JSON error, the non-object top-level error, or the
invalid `"type"` value error.  The latter three are plain `Error`s with no
`code`, so the catch block's ENOENT check rethrows them. -/
inductive DetectError where
  | ioError (code : String)
  | invalidJson
  | notAnObject
  | invalidTypeField
deriving DecidableEq

/-- JavaScript property read `parsed.type` on an object produced by
`JSON.parse`: with duplicate keys the last occurrence wins. -/
def jsGetField (fields : List (String × JsValue)) (key : String) : Option JsValue :=
  fields.foldl (fun acc f => if f.1 = key then some f.2 else acc) none

/-- `projectPath.replace(/\/$/, '')` — removes one trailing slash
(src/unnamed/part_004 line 98). -/
def stripTrailingSlash (s : String) : String :=
  if s.endsWith "/" then s.dropRight 1 else s

/-- `path.join(normalizedPath, 'package.json')` (part_004 line 99). -/
def packageJsonPath (projectPath : String) : String :=
  stripTrailingSlash projectPath ++ "/package.json"

/-- Shallow embedding of `ModuleFormatDetector.detectModuleFormat`
(src/unnamed/part_004 lines 96-158): read package.json; on ENOENT default to
CommonJS; `JSON.parse` it (wrapping the SyntaxError in a plain Error); reject
non-object top levels (including arrays and JSON null); a missing or null
`"type"` field defaults to CommonJS; `"module"` means ESM, `"commonjs"` means
CommonJS, and any other value throws.  All thrown errors lack a `code`, so
the outer catch rethrows them. -/
def detectModuleFormat (fs : FileSystem) (projectPath : String) :
    Except DetectError ModuleFormatResult :=
  match fs (packageJsonPath projectPath) with
  | .failure code =>
    if code = "ENOENT" then .ok ⟨.commonjs, "no package.json (default)"⟩
    else .error (.ioError code)
  | .success content =>
    match jsonParseJS content with
    | none => .error .invalidJson
    | some parsed =>
      match parsed with
      | .obj fields =>
        match jsGetField fields "type" with
        | none => .ok ⟨.commonjs, "package.json (default)"⟩
        | some JsValue.null => .ok ⟨.commonjs, "package.json (default)"⟩
        | some (JsValue.str t) =>
          if t = "module" then .ok ⟨.esm, "package.json"⟩
          else if t = "commonjs" then .ok ⟨.commonjs, "package.json"⟩
          else .error .invalidTypeField
        | some _ => .error .invalidTypeField
      | _ => .error .notAnObject

/-- C10: full case characterization of `detectModuleFormat` over the
`JSON.parse` model — CommonJS on ENOENT or a missing/null `"type"`, ESM
exactly for `"type": "module"`, and an error precisely for malformed JSON, a
non-object top level, any other `"type"` value, or a non-ENOENT I/O
failure. -/
theorem detectModuleFormat_spec (fs : FileSystem) (projectPath : String) :
    (fs (packageJsonPath projectPath) = .failure "ENOENT" →
       detectModuleFormat fs projectPath =
         .ok ⟨ModuleFormat.commonjs, "no package.json (default)"⟩) ∧
    (∀ code, fs (packageJsonPath projectPath) = .failure code → code ≠ "ENOENT" →
       detectModuleFormat fs projectPath = .error (.ioError code)) ∧
    (∀ content, fs (packageJsonPath projectPath) = .success content →
       jsonParseJS content = none →
       detectModuleFormat fs projectPath = .error .invalidJson) ∧
    (∀ content j, fs (packageJsonPath projectPath) = .success content →
       jsonParseJS content = some j → (∀ fields, j ≠ JsValue.obj fields) →
       detectModuleFormat fs projectPath = .error .notAnObject) ∧
    (∀ content fields, fs (packageJsonPath projectPath) = .success content →
       jsonParseJS content = some (JsValue.obj fields) →
       (jsGetField fields "type" = none ∨ jsGetField fields "type" = some JsValue.null) →
       detectModuleFormat fs projectPath =
         .ok ⟨ModuleFormat.commonjs, "package.json (default)"⟩) ∧
    (∀ content fields, fs (packageJsonPath projectPath) = .success content →
       jsonParseJS content = some (JsValue.obj fields) →
       jsGetField fields "type" = some (JsValue.str "module") →
       detectModuleFormat fs projectPath = .ok ⟨ModuleFormat.esm, "package.json"⟩) ∧
    (∀ content fields, fs (packageJsonPath projectPath) = .success content →
       jsonParseJS content = some (JsValue.obj fields) →
       jsGetField fields "type" = some (JsValue.str "commonjs") →
       detectModuleFormat fs projectPath = .ok ⟨ModuleFormat.commonjs, "package.json"⟩) ∧
    (∀ content fields t, fs (packageJsonPath projectPath) = .success content →
       jsonParseJS content = some (JsValue.obj fields) →
       jsGetField fields "type" = some (JsValue.str t) → t ≠ "module" → t ≠ "commonjs" →
       detectModuleFormat fs projectPath = .error .invalidTypeField) ∧
    (∀ content fields v, fs (packageJsonPath projectPath) = .success content →
       jsonParseJS content = some (JsValue.obj fields) →
       jsGetField fields "type" = some v → v ≠ JsValue.null → (∀ t, v ≠ JsValue.str t) →
       detectModuleFormat fs projectPath = .error .invalidTypeField) ∧
    (∀ r, detectModuleFormat fs projectPath = .ok r → r.format = ModuleFormat.esm →
       ∃ content fields, fs (packageJsonPath projectPath) = .success content ∧
         jsonParseJS content = some (JsValue.obj fields) ∧
         jsGetField fields "type" = some (JsValue.str "module")) := by
  refine ⟨?_, ?_, ?_, ?_, ?_, ?_, ?_, ?_, ?_, ?_⟩
  · intro h
    simp [detectModuleFormat, h]
  · intro code h hc
    simp [detectModuleFormat, h, hc]
  · intro content h hj
    simp [detectModuleFormat, h, hj]
  · intro content j h hj hno
    rcases j with _ | b | ⟨m, e⟩ | s | es | fields <;>
      simp [detectModuleFormat, h, hj]
    exact absurd rfl (hno fields)
  · intro content fields h hj hty
    rcases hty with hty | hty <;> simp [detectModuleFormat, h, hj, hty]
  · intro content fields h hj hty
    simp [detectModuleFormat, h, hj, hty]
  · intro content fields h hj hty
    simp [detectModuleFormat, h, hj, hty]
  · intro content fields t h hj hty ht1 ht2
    simp [detectModuleFormat, h, hj, hty, ht1, ht2]
  · intro content fields v h hj hty hnull hstr
    rcases v with _ | b | ⟨m, e⟩ | s | es | fs2
    · exact absurd rfl hnull
    · simp [detectModuleFormat, h, hj, hty]
    · simp [detectModuleFormat, h, hj, hty]
    · exact absurd rfl (hstr s)
    · simp [detectModuleFormat, h, hj, hty]
    · simp [detectModuleFormat, h, hj, hty]
  · intro r hr hfmt
    rcases hfs : fs (packageJsonPath projectPath) with content | code
    · rcases hj : jsonParseJS content with _ | j
      · simp [detectModuleFormat, hfs, hj] at hr
      · rcases j with _ | b | ⟨m, e⟩ | s | es | fields <;>
          simp [detectModuleFormat, hfs, hj] at hr
        rcases hty : jsGetField fields "type" with _ | v
        · rw [hty] at hr
          simp at hr
          rw [← hr] at hfmt
          simp at hfmt
        · rcases v with _ | b | ⟨m, e⟩ | s | es2 | fs2
          · rw [hty] at hr
            simp at hr
            rw [← hr] at hfmt
            simp at hfmt
          · rw [hty] at hr; simp at hr
          · rw [hty] at hr; simp at hr
          · rw [hty] at hr
            simp only [] at hr
            by_cases hm : s = "module"
            · rw [hm] at hty
              exact ⟨content, fields, rfl, hj, hty⟩
            · by_cases hcjs : s = "commonjs"
              · rw [if_neg hm, if_pos hcjs] at hr
                simp at hr
                rw [← hr] at hfmt
                simp at hfmt
              · rw [if_neg hm, if_neg hcjs] at hr
                simp at hr
          · rw [hty] at hr; simp at hr
          · rw [hty] at hr; simp at hr
    · by_cases hc : code = "ENOENT"
      · subst hc
        simp [detectModuleFormat, hfs] at hr
        rw [← hr] at hfmt
        simp at hfmt
      · simp [detectModuleFormat, hfs, hc] at hr

/-- Example project file system: a pretty-printed (whitespace-formatted) ESM
package.json at `/proj`, nothing else. -/
def moduleFs : FileSystem := fun p =>
  if p = packageJsonPath "/proj" then
    ReadOutcome.success ("\x7b \"type\": \"module\" \x7d".data)
  else ReadOutcome.failure "ENOENT"

/-- Witness for C10: a whitespace-formatted package.json declaring
`"type": "module"` parses and detects as ESM. -/
theorem detectModuleFormat_spec_witness :
    moduleFs (packageJsonPath "/proj") =
      ReadOutcome.success ("\x7b \"type\": \"module\" \x7d".data) ∧
    jsonParseJS ("\x7b \"type\": \"module\" \x7d".data) =
      some (JsValue.obj [("type", JsValue.str "module")]) ∧
    jsGetField [("type", JsValue.str "module")] "type" = some (JsValue.str "module") ∧
    detectModuleFormat moduleFs "/proj" =
      Except.ok ⟨ModuleFormat.esm, "package.json"⟩ :=
  ⟨by simp [moduleFs],
   by simp [jsonParseJS, parseJsVal, parseJsObj.eq_def, parseJsField.eq_def,
     parseJsObjTail.eq_def, parseJsStrLit, parseJsStrBody, parseJsUnits,
     unitsToChars, jsonHexVal, skipJsonWs, isJsonWs, unescapeChar, String.data],
   rfl,
   (detectModuleFormat_spec moduleFs "/proj").2.2.2.2.2.1
     ("\x7b \"type\": \"module\" \x7d".data)
     [("type", JsValue.str "module")] (by simp [moduleFs])
     (by simp [jsonParseJS, parseJsVal, parseJsObj.eq_def, parseJsField.eq_def,
       parseJsObjTail.eq_def, parseJsStrLit, parseJsStrBody, parseJsUnits,
       unitsToChars, jsonHexVal, skipJsonWs, isJsonWs, unescapeChar, String.data])
     rfl⟩


/-- AJV rule for `setupConfigSchema.executionTimeout`
(src/src/cli/schemas/setup-config.schema.ts lines 37-42):
`{type: 'integer', minimum: 1000, maximum: 600000}` — accepts a JSON number
iff it has no fractional part and lies in the closed range. -/
def executionTimeoutValid (t : ℚ) : Bool :=
  decide ((⌊t⌋ : ℚ) = t) && decide ((1000 : ℚ) ≤ t) && decide (t ≤ 600000)

/-- Zod rule for `SecurityConfigSchema.maxTimeoutMs` (src/unnamed/part_000
line 192, quoting config-types.ts): `z.number().min(1000).max(600000)` —
bounds only, no integrality requirement. -/
def maxTimeoutMsValid (t : ℚ) : Bool :=
  decide ((1000 : ℚ) ≤ t) && decide (t ≤ 600000)

/-- Zod rule for `SecurityConfigSchema.defaultTimeoutMs` (part_000 line 191):
`z.number().min(1000).max(300000)`. -/
def defaultTimeoutMsValid (t : ℚ) : Bool :=
  decide ((1000 : ℚ) ≤ t) && decide (t ≤ 300000)

/-- C8 counterexample: the Zod `SecurityConfigSchema.maxTimeoutMs` rule —
one of the claim's named timeout validators — accepts the non-integer
1000.5 ms, so "any non-integer value is rejected by the schema validator" is
false as stated. -/
theorem maxTimeoutMs_accepts_noninteger :
    maxTimeoutMsValid ((2001 : ℚ) / 2) = true ∧ ¬ ∃ n : ℤ, ((2001 : ℚ) / 2) = (n : ℚ) := by
  constructor
  · rw [maxTimeoutMsValid, Bool.and_eq_true]
    constructor <;> rw [decide_eq_true_iff] <;> norm_num
  · rintro ⟨n, hn⟩
    have h : (2001 : ℚ) = 2 * (n : ℚ) := by
      field_simp at hn
      linarith
    have h2 : (2001 : ℤ) = 2 * n := by exact_mod_cast h
    omega

/-- C8 (amended): the AJV `executionTimeout` rule accepts a value iff it is
an integer in [1000, 600000]; the Zod `SecurityConfigSchema` rules check only
the ranges — `maxTimeoutMs` accepts any number in [1000, 600000] and
`defaultTimeoutMs` any number in [1000, 300000], with no integrality
requirement. -/
theorem timeout_validation_bounds (t : ℚ) :
    (executionTimeoutValid t = true ↔
      ((∃ n : ℤ, t = (n : ℚ)) ∧ 1000 ≤ t ∧ t ≤ 600000)) ∧
    (maxTimeoutMsValid t = true ↔ (1000 ≤ t ∧ t ≤ 600000)) ∧
    (defaultTimeoutMsValid t = true ↔ (1000 ≤ t ∧ t ≤ 300000)) := by
  refine ⟨?_, ?_, ?_⟩
  · constructor
    · intro h
      rw [executionTimeoutValid, Bool.and_eq_true, Bool.and_eq_true] at h
      rcases h with ⟨⟨hi, h1⟩, h2⟩
      exact ⟨⟨⌊t⌋, (of_decide_eq_true hi).symm⟩, of_decide_eq_true h1, of_decide_eq_true h2⟩
    · rintro ⟨⟨n, rfl⟩, h1, h2⟩
      rw [executionTimeoutValid, Bool.and_eq_true, Bool.and_eq_true]
      exact ⟨⟨decide_eq_true (by simp), decide_eq_true h1⟩, decide_eq_true h2⟩
  · rw [maxTimeoutMsValid, Bool.and_eq_true]
    simp
  · rw [defaultTimeoutMsValid, Bool.and_eq_true]
    simp

end CodeExecutor
